import Mathlib

/-!
Verification of `notion-to-obsidian.py` (a Notion-export → Obsidian flattener).

Strings are modelled as `List Char`.  Python's `re` backtracking is embedded
faithfully for the two regular expressions the program uses (frontmatter
stripping and Markdown-link rewriting), including greedy/lazy quantifier
priority.  Filesystem effects (reads, writes, `os.makedirs`, `shutil.copy2`)
are modelled by passing their outcomes in as data (`Except`/`Option` fields of
`InputFile`), mirroring which Python operations are inside a `try` block.
-/

namespace NotionToObsidian

/-- Python's whitespace (`str.isspace`, and `\s` of `re` on `str`): the exact
set of codepoints accepted by CPython. -/
def pyIsSpace (c : Char) : Bool :=
  [9, 10, 11, 12, 13, 28, 29, 30, 31, 32, 0x85, 0xa0, 0x1680,
   0x2000, 0x2001, 0x2002, 0x2003, 0x2004, 0x2005, 0x2006, 0x2007,
   0x2008, 0x2009, 0x200a, 0x2028, 0x2029, 0x202f, 0x205f, 0x3000].contains c.toNat

/-- `str.strip()` on both ends. -/
def pyStrip (s : List Char) : List Char :=
  ((s.dropWhile pyIsSpace).reverse.dropWhile pyIsSpace).reverse

/-- Does the list start with three dashes (`---`)? -/
def startsWith3Dash : List Char → Bool
  | a :: b :: c :: _ => a = '-' && b = '-' && c = '-'
  | _ => false

/-- `hasSub pat s`: does `pat` occur as a contiguous substring of `s`? -/
def startsWithL : List Char → List Char → Bool
  | [], _ => true
  | _ :: _, [] => false
  | a :: as, b :: bs => a = b && startsWithL as bs

def hasSub (pat : List Char) : List Char → Bool
  | [] => startsWithL pat []
  | c :: cs => startsWithL pat (c :: cs) || hasSub pat cs

/-! ## Frontmatter stripper

Embeds `re.sub(r'^\s*---\s*\n.*?\n---\s*\n+', '', content, flags=re.DOTALL)`.
The pattern is anchored at position 0 (no `re.MULTILINE`), so at most one
replacement happens.  Backtracking order of the Python engine:
`^\s*` is forced maximal (`-` is not whitespace); `---`; `\s*\n` greedy, i.e.
candidate resume points after each newline of the maximal whitespace run,
longest first; `.*?` lazy, i.e. the closing `\n---\s*\n+` is searched left to
right; at the end of the pattern `\s*\n+` greedily consumes the maximal
whitespace run up to and including its last newline. -/

/-- Match `\s*\n+` at the end of the pattern: consume the maximal whitespace
run through its last newline; fail if the run has no newline. -/
def consumeWsNl : List Char → Option (List Char)
  | [] => none
  | c :: cs =>
    if pyIsSpace c then
      match consumeWsNl cs with
      | some r => some r
      | none => if c = '\n' then some cs else none
    else none

/-- Try the closing `\n---\s*\n+` at the current position. -/
def closeHere : List Char → Option (List Char)
  | [] => none
  | c :: t =>
    if c = '\n' && startsWith3Dash t then consumeWsNl (t.drop 3) else none

/-- Lazy `.*?` expansion: find the leftmost position where the closing
delimiter pattern succeeds. -/
def findClose : List Char → Option (List Char)
  | [] => none
  | c :: t =>
    match closeHere (c :: t) with
    | some r => some r
    | none => findClose t

/-- Greedy `\s*\n` after the opening `---`: remainders after each newline of
the maximal whitespace run, tried longest-consumed first. -/
def nlSplits : List Char → List (List Char)
  | [] => []
  | c :: cs =>
    if pyIsSpace c then nlSplits cs ++ (if c = '\n' then [cs] else [])
    else []

def tryCloses : List (List Char) → Option (List Char)
  | [] => none
  | t :: ts =>
    match findClose t with
    | some r => some r
    | none => tryCloses ts

/-- The anchored match of the whole frontmatter pattern; `some r` means the
match succeeded and `r` is the text after the matched block. -/
def matchFrontmatter (s : List Char) : Option (List Char) :=
  let s1 := s.dropWhile pyIsSpace
  if startsWith3Dash s1 then tryCloses (nlSplits (s1.drop 3)) else none

/-- `remove_frontmatter` from the source. -/
def remove_frontmatter (content : List Char) : List Char :=
  (matchFrontmatter content).getD content

/-! ## Link rewriter

Embeds `pattern.sub(repl, content)` for
`pattern = re.compile(r'\[([^\]]+)\]\(([^)]+?\.md(?:#[^)]+)?)\)', flags=re.IGNORECASE)`
with `repl` as in the source: strip the display text, drop the `#` anchor,
URL-decode, take the basename, strip a trailing `.md` (case-insensitively),
and replace backslashes by forward slashes. -/

def isMdM (c : Char) : Bool := c = 'm' || c = 'M'

def isMdD (c : Char) : Bool := c = 'd' || c = 'D'

/-- Try `\.md(?:#[^)]+)?\)` at the current position inside group 2; on success
return the characters of group 2 consumed from here and the text after the
closing parenthesis. -/
def tryMdClose : List Char → Option (List Char × List Char)
  | c1 :: m :: d :: v =>
    if c1 = '.' && isMdM m && isMdD d then
      match v with
      | [] => none
      | v0 :: w =>
        if v0 = '#' then
          let run := w.takeWhile (fun c => c ≠ ')')
          (match w.drop run.length with
           | [] => none
           | w0 :: rest =>
             if w0 = ')' then
               if run = [] then none else some (c1 :: m :: d :: v0 :: run, rest)
             else none)
        else if v0 = ')' then some ([c1, m, d], w)
        else none
    else none
  | _ => none

/-- The lazy `[^)]+?` of group 2: `acc` holds the (reversed) characters
consumed so far; at each step the close is tried first, then one more
non-`)` character is consumed. -/
def scanTarget : List Char → List Char → Option (List Char × List Char)
  | _, [] => none
  | acc, c :: cs =>
    match tryMdClose (c :: cs) with
    | some p => some (acc.reverse ++ p.1, p.2)
    | none => if c = ')' then none else scanTarget (c :: acc) cs

/-- Attempt the whole link pattern with the leading `[` already consumed. -/
def matchLinkBody (s : List Char) : Option (List Char × List Char × List Char) :=
  let d := s.takeWhile (fun c => c ≠ ']')
  if d = [] then none
  else
    match s.dropWhile (fun c => c ≠ ']') with
    | e1 :: e2 :: c :: cs =>
      if e1 = ']' && e2 = '(' && !(c = ')') then
        match scanTarget [c] cs with
        | some p => some (d, p.1, p.2)
        | none => none
      else none
    | _ => none

/-- Attempt the link pattern at the current position; on success return
(group 1, group 2, remainder after the match). -/
def matchLink : List Char → Option (List Char × List Char × List Char)
  | [] => none
  | c :: s => if c = '[' then matchLinkBody s else none

/-- One hex digit of `urllib.parse.unquote` (`0-9A-Fa-f`). -/
def hexDigitVal (c : Char) : Option Nat :=
  if '0' ≤ c && c ≤ '9' then some (c.toNat - 48)
  else if 'A' ≤ c && c ≤ 'F' then some (c.toNat - 55)
  else if 'a' ≤ c && c ≤ 'f' then some (c.toNat - 87)
  else none

def replacementChar : Char := Char.ofNat 0xFFFD

def isUtf8Cont (b : Nat) : Bool := 0x80 ≤ b && b ≤ 0xBF

/-- First continuation byte ranges of a three-byte UTF-8 lead. -/
def utf8Cont1Ok3 (lead b : Nat) : Bool :=
  if lead = 0xE0 then 0xA0 ≤ b && b ≤ 0xBF
  else if lead = 0xED then 0x80 ≤ b && b ≤ 0x9F
  else isUtf8Cont b

/-- First continuation byte ranges of a four-byte UTF-8 lead. -/
def utf8Cont1Ok4 (lead b : Nat) : Bool :=
  if lead = 0xF0 then 0x90 ≤ b && b ≤ 0xBF
  else if lead = 0xF4 then 0x80 ≤ b && b ≤ 0x8F
  else isUtf8Cont b

/-- `bytes.decode('utf-8', errors='replace')`: strict UTF-8 with one
replacement character per maximal ill-formed subpart. -/
def utf8Decode : List Nat → List Char
  | [] => []
  | b :: bs =>
    if b < 0x80 then Char.ofNat b :: utf8Decode bs
    else if 0xC2 ≤ b && b ≤ 0xDF then
      match bs with
      | [] => [replacementChar]
      | b1 :: bs1 =>
        if isUtf8Cont b1 then
          Char.ofNat ((b - 0xC0) * 64 + (b1 - 0x80)) :: utf8Decode bs1
        else replacementChar :: utf8Decode (b1 :: bs1)
    else if 0xE0 ≤ b && b ≤ 0xEF then
      match bs with
      | [] => [replacementChar]
      | b1 :: bs1 =>
        if utf8Cont1Ok3 b b1 then
          match bs1 with
          | [] => [replacementChar]
          | b2 :: bs2 =>
            if isUtf8Cont b2 then
              Char.ofNat (((b - 0xE0) * 64 + (b1 - 0x80)) * 64 + (b2 - 0x80)) :: utf8Decode bs2
            else replacementChar :: utf8Decode (b2 :: bs2)
        else replacementChar :: utf8Decode (b1 :: bs1)
    else if 0xF0 ≤ b && b ≤ 0xF4 then
      match bs with
      | [] => [replacementChar]
      | b1 :: bs1 =>
        if utf8Cont1Ok4 b b1 then
          match bs1 with
          | [] => [replacementChar]
          | b2 :: bs2 =>
            if isUtf8Cont b2 then
              match bs2 with
              | [] => [replacementChar]
              | b3 :: bs3 =>
                if isUtf8Cont b3 then
                  Char.ofNat ((((b - 0xF0) * 64 + (b1 - 0x80)) * 64 + (b2 - 0x80)) * 64 + (b3 - 0x80))
                    :: utf8Decode bs3
                else replacementChar :: utf8Decode (b3 :: bs3)
            else replacementChar :: utf8Decode (b2 :: bs2)
        else replacementChar :: utf8Decode (b1 :: bs1)
    else replacementChar :: utf8Decode bs

/-- `urllib.parse.unquote`: percent-escapes are collected into maximal byte
runs (`bytes`, reversed) and decoded as UTF-8 with replacement. -/
def unquoteAux : List Nat → List Char → List Char
  | bytes, [] => utf8Decode bytes.reverse
  | bytes, '%' :: h1 :: h2 :: rest =>
    (match hexDigitVal h1, hexDigitVal h2 with
     | some a, some b => unquoteAux ((a * 16 + b) :: bytes) rest
     | _, _ => utf8Decode bytes.reverse ++ '%' :: unquoteAux [] (h1 :: h2 :: rest))
  | bytes, c :: cs => utf8Decode bytes.reverse ++ c :: unquoteAux [] cs

def pyUnquote (s : List Char) : List Char := unquoteAux [] s

/-- `target.split('#')[0]`. -/
def dropAnchor (s : List Char) : List Char := s.takeWhile (fun c => c ≠ '#')

/-- `os.path.basename` (POSIX): the part after the last `/`. -/
def posixBasename (s : List Char) : List Char :=
  (s.reverse.takeWhile (fun c => c ≠ '/')).reverse

/-- `re.sub(r'\.md$', '', s, flags=re.IGNORECASE)`: `$` matches at the end of
the string or just before a single final newline. -/
def stripMdExt (s : List Char) : List Char :=
  match s.reverse with
  | d :: m :: '.' :: rest =>
    if isMdD d && isMdM m then rest.reverse else s
  | '\n' :: d :: m :: '.' :: rest =>
    if isMdD d && isMdM m then ('\n' :: rest).reverse else s
  | _ => s

def backslashToSlash (s : List Char) : List Char :=
  s.map (fun c => if c = '\\' then '/' else c)

/-- The bare page name derived from group 2 by `repl` in the source. -/
def deriveName (target : List Char) : List Char :=
  backslashToSlash (stripMdExt (posixBasename (pyUnquote (dropAnchor target))))

/-- The replacement text emitted by `repl` for a matched link. -/
def wikiReplacement (display target : List Char) : List Char :=
  let text := pyStrip display
  let name := deriveName target
  if text = name then '[' :: '[' :: name ++ [']', ']']
  else '[' :: '[' :: name ++ '|' :: text ++ [']', ']']

/-- `re.sub` scan: try the pattern at every position, left to right and
non-overlapping; `fuel` bounds the recursion (the scan consumes at least one
character per step, so `fuel = length` suffices). -/
def scanAux : Nat → List Char → List Char
  | 0, s => s
  | _ + 1, [] => []
  | n + 1, c :: cs =>
    match matchLink (c :: cs) with
    | some (d, t, rest) => wikiReplacement d t ++ scanAux n rest
    | none => c :: scanAux n cs

/-- `convert_md_links_to_wikilinks` from the source. -/
def convert_md_links_to_wikilinks (content : List Char) : List Char :=
  scanAux content.length content

/-! ## Breadcrumb injector -/

/-- `str.split(os.sep)` with `os.sep = '/'` (POSIX): split at every slash,
keeping empty segments. -/
def splitOnSlash : List Char → List (List Char)
  | [] => [[]]
  | '/' :: t => [] :: splitOnSlash t
  | c :: t =>
    match splitOnSlash t with
    | h :: r => (c :: h) :: r
    | [] => [[c]]

/-- `[p for p in parent_rel_path.split(os.sep) if p and p != '.']`. -/
def breadcrumbParts (p : List Char) : List (List Char) :=
  (splitOnSlash p).filter (fun q => !(q = [] || q = ['.']))

/-- `sep.join(strs)`. -/
def joinSep (sep : List Char) : List (List Char) → List Char
  | [] => []
  | [x] => x
  | x :: y :: t => x ++ sep ++ joinSep sep (y :: t)

/-- `" > ".join(f'[[{part}]]' for part in parts)`. -/
def breadcrumbLinks (parts : List (List Char)) : List Char :=
  joinSep (" > ".toList) (parts.map (fun q => '[' :: '[' :: q ++ [']', ']']))

/-- `add_breadcrumb` from the source. -/
def add_breadcrumb (content parent_rel_path : List Char) : List Char :=
  if parent_rel_path = [] || parent_rel_path = ['.'] then content
  else
    let parts := breadcrumbParts parent_rel_path
    if parts = [] then content
    else ("**Parent:** ".toList) ++ breadcrumbLinks parts ++ ('\n' :: '\n' :: content)

/-! ## Filename sanitizer and resolver -/

/-- `slugify_filename` from the source: strip, replace `\` and `/` by `-`,
remove the control characters `[\x00-\x1f\x7f]`. -/
def slugify_filename (name : List Char) : List Char :=
  let n1 := pyStrip name
  let n2 := n1.map (fun c => if c = '\\' then '-' else if c = '/' then '-' else c)
  n2.filter (fun c => !(c.toNat ≤ 0x1f || c.toNat = 0x7f))

/-- `os.path.splitext` (POSIX): the extension starts at the last dot of the
basename, unless every character of the basename before that dot is a dot. -/
def splitext (p : List Char) : List Char × List Char :=
  let b := (p.reverse.takeWhile (fun c => c ≠ '/')).reverse
  let dir := p.take (p.length - b.length)
  let rAfter := b.reverse.takeWhile (fun c => c ≠ '.')
  if rAfter.length = b.length then (p, [])
  else
    let stem := b.take (b.length - rAfter.length - 1)
    if stem.all (fun c => c = '.') then (p, [])
    else (dir ++ stem, b.drop (b.length - rAfter.length - 1))

/-- Decimal digits of a natural number (`str(counter)`), with structural fuel
(`fuel = n` always suffices since `n / 10 < n` and `natRepr` passes `n`). -/
def natDigitsAux : Nat → Nat → List Char
  | 0, n => [Char.ofNat (48 + n)]
  | fuel + 1, n =>
    if n < 10 then [Char.ofNat (48 + n)]
    else natDigitsAux fuel (n / 10) ++ [Char.ofNat (48 + n % 10)]

def natRepr (n : Nat) : List Char := natDigitsAux n n

/-- `f"{base}-{counter}{ext}"`. -/
def candidateName (base ext : List Char) (counter : Nat) : List Char :=
  base ++ '-' :: (natRepr counter ++ ext)

/-- The `while os.path.exists(...)` probe loop, with the directory contents
modelled by the list `existing`; `fuel = existing.length + 1` is enough to
reach a free candidate (proved below), so the zero-fuel default is never
used. -/
def probeLoop (existing : List (List Char)) (base ext : List Char) : Nat → Nat → List Char
  | counter, 0 => candidateName base ext counter
  | counter, fuel + 1 =>
    let cand := candidateName base ext counter
    if cand ∈ existing then probeLoop existing base ext (counter + 1) fuel else cand

/-- `ensure_unique_path` from the source, with `os.path.exists` on the
destination folder modelled as membership in `existing`. -/
def ensure_unique_path (existing : List (List Char)) (filename : List Char) : List Char :=
  if filename ∈ existing then
    let p := splitext filename
    probeLoop existing p.1 p.2 1 (existing.length + 1)
  else filename

/-! ## Orchestrator model

`process_and_flatten` walks the export tree and dispatches on
`file.lower().endswith('.md')`.  The filesystem environment is passed in as
data: each `InputFile` carries the outcome of the `open`/`read` call, of the
output `open`/`write` call, of `os.makedirs` for its asset directory, and of
`shutil.copy2`.  The `try`/`except` placement of the source is mirrored
exactly: read and write failures of `process_file` and `copy2` failures of
`copy_asset` are caught (a warning is appended to the log), while a
`makedirs` failure in `copy_asset` is raised outside any `try` and aborts the
run (`Except.error`). -/

def asciiLower (c : Char) : Char :=
  if 'A' ≤ c && c ≤ 'Z' then Char.ofNat (c.toNat + 32) else c

/-- `file.lower().endswith('.md')`. -/
def isMdName (name : List Char) : Bool :=
  match (name.map asciiLower).reverse with
  | 'd' :: 'm' :: '.' :: _ => true
  | _ => false

structure InputFile where
  path : List Char
  name : List Char
  relDir : List Char
  readResult : Except (List Char) (List Char)
  writeError : Option (List Char)
  mkdirFails : Bool
  copyError : Option (List Char)
deriving Repr

structure RunState where
  existing : List (List Char)
  written : List (List Char × List Char)
  mdCount : Nat
  assetCount : Nat
  log : List (List Char)
deriving DecidableEq, Repr

/-- Did the run abort with an uncaught exception? -/
def runAborted (r : Except (List Char) RunState) : Bool :=
  match r with
  | .error _ => true
  | .ok _ => false

def mdCountOf (r : Except (List Char) RunState) : Nat :=
  match r with
  | .ok st => st.mdCount
  | .error _ => 0

def assetCountOf (r : Except (List Char) RunState) : Nat :=
  match r with
  | .ok st => st.assetCount
  | .error _ => 0

def writtenCountOf (r : Except (List Char) RunState) : Nat :=
  match r with
  | .ok st => st.written.length
  | .error _ => 0

def logOf (r : Except (List Char) RunState) : List (List Char) :=
  match r with
  | .ok st => st.log
  | .error _ => []

def writtenNamesOf (r : Except (List Char) RunState) : List (List Char) :=
  match r with
  | .ok st => st.written.map Prod.fst
  | .error _ => []

/-- A Markdown input file whose read fails. -/
def cFailMd : InputFile :=
  { path := ("export/Note.md").toList, name := ("Note.md").toList, relDir := ("." ).toList,
    readResult := .error (("boom").toList), writeError := none,
    mkdirFails := false, copyError := none }

/-- An asset file whose destination directory cannot be created. -/
def cBadAsset : InputFile :=
  { path := ("export/a/img.png").toList, name := ("img.png").toList, relDir := ("a").toList,
    readResult := .ok [], writeError := none,
    mkdirFails := true, copyError := none }

/-- Two readable Markdown files with the same basename from different
subfolders. -/
def wFile1 : InputFile :=
  { path := ("export/A/Plan.md").toList, name := ("Plan.md").toList, relDir := ("A").toList,
    readResult := .ok (("one").toList), writeError := none,
    mkdirFails := false, copyError := none }

def wFile2 : InputFile :=
  { path := ("export/B/Plan.md").toList, name := ("Plan.md").toList, relDir := ("B").toList,
    readResult := .ok (("two").toList), writeError := none,
    mkdirFails := false, copyError := none }

def readWarn (path err : List Char) : List Char :=
  ("⚠️  Skipping ".toList) ++ path ++ (": cannot read (".toList) ++ err ++ [')']

def writeWarn (outPath err : List Char) : List Char :=
  ("⚠️  Failed to write ".toList) ++ outPath ++ (": ".toList) ++ err

def copyWarn (src err : List Char) : List Char :=
  ("⚠️  Failed to copy asset ".toList) ++ src ++ (": ".toList) ++ err

def convertedMsg (src outPath : List Char) : List Char :=
  ("✔ Converted: ".toList) ++ src ++ (" -> ".toList) ++ outPath

/-- The text transformation pipeline of `process_file`. -/
def transformContent (content relDir : List Char) : List Char :=
  add_breadcrumb (convert_md_links_to_wikilinks (remove_frontmatter content)) relDir

/-- `process_file`: read (caught), transform, resolve a unique name, write
(caught).  A successful write claims the name (the file now exists). -/
def process_file_model (outputFolder : List Char) (st : RunState) (f : InputFile) : RunState :=
  match f.readResult with
  | .error e => { st with log := st.log ++ [readWarn f.path e] }
  | .ok content =>
    let out := transformContent content f.relDir
    let uname := ensure_unique_path st.existing (slugify_filename f.name)
    let outPath := outputFolder ++ '/' :: uname
    match f.writeError with
    | some e => { st with log := st.log ++ [writeWarn outPath e] }
    | none =>
      { st with existing := uname :: st.existing,
                written := st.written ++ [(uname, out)],
                log := st.log ++ [convertedMsg f.path outPath] }

/-- `copy_asset`: `os.makedirs` is outside the `try` block, so its failure
propagates; a `shutil.copy2` failure is caught and logged. -/
def copy_asset_model (st : RunState) (f : InputFile) : Except (List Char) RunState :=
  if f.mkdirFails then .error (("makedirs failed for ".toList) ++ f.path)
  else
    match f.copyError with
    | some e => .ok { st with log := st.log ++ [copyWarn f.path e] }
    | none => .ok st

/-- One iteration of the `os.walk` loop body: `md_count` and `asset_count`
are incremented unconditionally after the respective call, exactly as in the
source. -/
def runStep (outputFolder : List Char) (copyAssets : Bool) (st : RunState) (f : InputFile) :
    Except (List Char) RunState :=
  if isMdName f.name then
    let st1 := process_file_model outputFolder st f
    .ok { st1 with mdCount := st1.mdCount + 1 }
  else if copyAssets then
    match copy_asset_model st f with
    | .ok st1 => .ok { st1 with assetCount := st1.assetCount + 1 }
    | .error e => .error e
  else .ok st

def runFiles (outputFolder : List Char) (copyAssets : Bool) :
    RunState → List InputFile → Except (List Char) RunState
  | st, [] => .ok st
  | st, f :: fs =>
    match runStep outputFolder copyAssets st f with
    | .ok st1 => runFiles outputFolder copyAssets st1 fs
    | .error e => .error e

def initState (existing0 : List (List Char)) : RunState :=
  { existing := existing0, written := [], mdCount := 0, assetCount := 0, log := [] }

/-- `process_and_flatten`, with the traversal order given by `files` and the
initial output-directory contents by `existing0`. -/
def process_and_flatten_model (outputFolder : List Char) (copyAssets : Bool)
    (existing0 : List (List Char)) (files : List InputFile) : Except (List Char) RunState :=
  runFiles outputFolder copyAssets (initState existing0) files

/-- The final summary lines printed after traversal. -/
def summaryMdLine (st : RunState) : List Char :=
  (" - Markdown files processed: ".toList) ++ natRepr st.mdCount

def summaryAssetCount (st : RunState) : Nat := st.assetCount

def wRun : Except (List Char) RunState :=
  process_and_flatten_model (("out").toList) true [("assets").toList] [wFile1, wFile2]

def c9Run : Except (List Char) RunState :=
  process_and_flatten_model (("out").toList) true [] [cFailMd]

/-! ## Auxiliary predicates used in the theorem statements -/

/-- Decimal value of a digit string (left inverse of `natRepr`). -/
def digitsVal (l : List Char) : Nat :=
  l.foldl (fun a c => a * 10 + (c.toNat - 48)) 0

/-- Does the list start with a (case-insensitive) `.md` window? -/
def mdAtHead : List Char → Bool
  | c1 :: c2 :: c3 :: _ => c1 = '.' && isMdM c2 && isMdD c3
  | _ => false

/-- Does the list contain a (case-insensitive) `.md` substring? -/
def hasMdSub : List Char → Bool
  | [] => false
  | c :: cs => mdAtHead (c :: cs) || hasMdSub cs

/-- For a link target `t` (no `)` inside) immediately followed by `)`: does
`\.md(?:#[^)]+)?\)` succeed at this position of `t`? -/
def anchOk : List Char → Bool
  | '#' :: w => !w.isEmpty
  | _ => false

def closesAt : List Char → Bool
  | '.' :: m :: d :: v => isMdM m && isMdD d && (v.isEmpty || anchOk v)
  | _ => false

def hasClose : List Char → Bool
  | [] => false
  | c :: cs => closesAt (c :: cs) || hasClose cs

/-! # Helper lemmas -/

theorem digitsVal_append_one (l : List Char) (c : Char) :
    digitsVal (l ++ [c]) = digitsVal l * 10 + (c.toNat - 48) := by
  simp only [digitsVal]
  rw [List.foldl_append]
  rfl

theorem digitsVal_natDigitsAux : ∀ fuel n, n ≤ fuel → digitsVal (natDigitsAux fuel n) = n := by
  intro fuel
  induction fuel with
  | zero =>
    intro n hn
    have h0 : n = 0 := Nat.le_zero.mp hn
    subst h0
    decide
  | succ f ih =>
    intro n hn
    by_cases h10 : n < 10
    · simp only [natDigitsAux, if_pos h10]
      interval_cases n <;> decide
    · have hdiv : n / 10 < n := Nat.div_lt_self (by omega) (by omega)
      have hrec : n / 10 ≤ f := by omega
      simp only [natDigitsAux, if_neg h10]
      rw [digitsVal_append_one, ih _ hrec]
      have hm : n % 10 < 10 := Nat.mod_lt _ (by omega)
      have hchar : (Char.ofNat (48 + n % 10)).toNat - 48 = n % 10 := by
        generalize hq : n % 10 = m at hm ⊢
        interval_cases m <;> decide
      rw [hchar]
      omega

theorem digitsVal_natRepr (n : Nat) : digitsVal (natRepr n) = n :=
  digitsVal_natDigitsAux n n le_rfl

theorem natRepr_injective : Function.Injective natRepr := by
  intro a b h
  have ha := digitsVal_natRepr a
  have hb := digitsVal_natRepr b
  rw [← ha, ← hb, h]

theorem candidateName_inj (base ext : List Char) {j k : Nat}
    (h : candidateName base ext j = candidateName base ext k) : j = k := by
  unfold candidateName at h
  have h1 := List.append_cancel_left h
  have h2 : natRepr j ++ ext = natRepr k ++ ext := by injection h1
  exact natRepr_injective (List.append_cancel_right h2)

theorem exists_free_candidate (existing : List (List Char)) (base ext : List Char) :
    ∃ k, 1 ≤ k ∧ k ≤ existing.length + 1 ∧ candidateName base ext k ∉ existing := by
  by_contra hcon
  push_neg at hcon
  have hinj : Function.Injective (fun i => candidateName base ext (i + 1)) := by
    intro x y hxy
    have := candidateName_inj base ext hxy
    omega
  have hnodup : ((List.range (existing.length + 1)).map
      (fun i => candidateName base ext (i + 1))).Nodup :=
    (List.nodup_range (existing.length + 1)).map hinj
  have hsub : ((List.range (existing.length + 1)).map
      (fun i => candidateName base ext (i + 1))).toFinset ⊆ existing.toFinset := by
    intro x hx
    simp only [List.mem_toFinset, List.mem_map, List.mem_range] at hx ⊢
    obtain ⟨i, hi, rfl⟩ := hx
    exact hcon (i + 1) (by omega) (by omega)
  have hcard : ((List.range (existing.length + 1)).map
      (fun i => candidateName base ext (i + 1))).toFinset.card = existing.length + 1 := by
    rw [List.toFinset_card_of_nodup hnodup]
    simp
  have hle : existing.length + 1 ≤ existing.length :=
    calc existing.length + 1 = _ := hcard.symm
    _ ≤ existing.toFinset.card := Finset.card_le_card hsub
    _ ≤ existing.length := List.toFinset_card_le existing
  omega

theorem probeLoop_eq_of_least (existing : List (List Char)) (base ext : List Char) :
    ∀ fuel counter k, counter ≤ k → k < counter + fuel →
      candidateName base ext k ∉ existing →
      (∀ j, counter ≤ j → j < k → candidateName base ext j ∈ existing) →
      probeLoop existing base ext counter fuel = candidateName base ext k := by
  intro fuel
  induction fuel with
  | zero => intro counter k h1 h2 h3 h4; omega
  | succ f ih =>
    intro counter k h1 h2 h3 h4
    by_cases hck : counter = k
    · subst hck
      simp only [probeLoop, if_neg h3]
    · have hmem : candidateName base ext counter ∈ existing := h4 counter le_rfl (by omega)
      simp only [probeLoop, if_pos hmem]
      exact ih (counter + 1) k (by omega) (by omega) h3 (fun j hj1 hj2 => h4 j (by omega) hj2)

theorem ensure_unique_core (existing : List (List Char)) (filename : List Char)
    (h : filename ∈ existing) :
    ∃ k, 1 ≤ k ∧ candidateName (splitext filename).1 (splitext filename).2 k ∉ existing ∧
      (∀ j, 1 ≤ j → j < k →
        candidateName (splitext filename).1 (splitext filename).2 j ∈ existing) ∧
      ensure_unique_path existing filename =
        candidateName (splitext filename).1 (splitext filename).2 k ∧
      k ≤ existing.length + 1 := by
  obtain ⟨k0, hk01, hk02, hk03⟩ :=
    exists_free_candidate existing (splitext filename).1 (splitext filename).2
  have hex : ∃ k, 1 ≤ k ∧
      candidateName (splitext filename).1 (splitext filename).2 k ∉ existing := ⟨k0, hk01, hk03⟩
  have hPk := Nat.find_spec hex
  have hfind_le : Nat.find hex ≤ k0 := Nat.find_le ⟨hk01, hk03⟩
  refine ⟨Nat.find hex, hPk.1, hPk.2, ?_, ?_, by omega⟩
  · intro j hj1 hj2
    by_contra hmem
    exact Nat.find_min hex hj2 ⟨hj1, hmem⟩
  · simp only [ensure_unique_path, if_pos h]
    exact probeLoop_eq_of_least existing _ _ (existing.length + 1) 1 (Nat.find hex)
      hPk.1 (by omega) hPk.2
      (fun j hj1 hj2 => by
        by_contra hmem
        exact Nat.find_min hex hj2 ⟨hj1, hmem⟩)

theorem ensure_unique_path_not_mem (existing : List (List Char)) (filename : List Char) :
    ensure_unique_path existing filename ∉ existing := by
  by_cases h : filename ∈ existing
  · obtain ⟨k, _, hfree, _, heq, _⟩ := ensure_unique_core existing filename h
    rw [heq]
    exact hfree
  · simp only [ensure_unique_path, if_neg h]
    exact h

/-- If the text, after leading whitespace, does not start with `---`, the
frontmatter stripper returns it unchanged. -/
theorem remove_frontmatter_of_no_dashes (t : List Char)
    (h : startsWith3Dash (t.dropWhile pyIsSpace) = false) :
    remove_frontmatter t = t := by
  simp only [remove_frontmatter, matchFrontmatter, h, Bool.false_eq_true, if_false,
    Option.getD_none]

theorem dropWhile_append_of_all {p : Char → Bool} :
    ∀ (w t : List Char), (∀ c ∈ w, p c = true) → (w ++ t).dropWhile p = t.dropWhile p := by
  intro w
  induction w with
  | nil => simp
  | cons c cs ih =>
    intro t hw
    have hc : p c = true := hw c (by simp)
    simp only [List.cons_append, List.dropWhile_cons, hc, if_true]
    exact ih t (fun x hx => hw x (by simp [hx]))

theorem hasSub_mono {pat : List Char} :
    ∀ {s v : List Char}, v <:+ s → hasSub pat v = true → hasSub pat s = true := by
  intro s
  induction s with
  | nil =>
    intro v hv h
    rw [List.suffix_nil.mp hv] at h
    exact h
  | cons c cs ih =>
    intro v hv h
    rcases List.suffix_cons_iff.mp hv with rfl | hv'
    · exact h
    · have := ih hv' h
      simp [hasSub, this]

theorem hasSub_suffix_false {pat v s : List Char} (h : hasSub pat s = false) (hv : v <:+ s) :
    hasSub pat v = false := by
  cases hvb : hasSub pat v
  · rfl
  · rw [hasSub_mono hv hvb] at h
    exact absurd h (by simp)

theorem hasSub_of_startsWith3Dash {u : List Char} (h : startsWith3Dash u = true) :
    hasSub (['-', '-', '-']) u = true := by
  match u with
  | [] => simp [startsWith3Dash] at h
  | [a] => simp [startsWith3Dash] at h
  | [a, b] => simp [startsWith3Dash] at h
  | a :: b :: c :: t =>
    simp only [startsWith3Dash, Bool.and_eq_true, decide_eq_true_eq] at h
    obtain ⟨⟨ha, hb⟩, hc⟩ := h
    subst ha
    subst hb
    subst hc
    simp [hasSub, startsWithL]

theorem consumeWsNl_junction (rest : List Char)
    (hr1 : ∀ r0 rs, rest = r0 :: rs → pyIsSpace r0 = false) :
    consumeWsNl ('\n' :: rest) = some rest := by
  cases rest with
  | nil => decide
  | cons r0 rs =>
    have h0 : pyIsSpace r0 = false := hr1 r0 rs rfl
    simp [consumeWsNl, h0, show pyIsSpace '\n' = true from by decide]

theorem findClose_body_junction (rest : List Char)
    (hr1 : ∀ r0 rs, rest = r0 :: rs → pyIsSpace r0 = false) :
    ∀ v : List Char, hasSub (['-', '-', '-']) v = false →
      findClose (v ++ '\n' :: '-' :: '-' :: '-' :: '\n' :: rest) = some rest := by
  intro v
  induction v with
  | nil =>
    intro _
    have h1 : closeHere ('\n' :: '-' :: '-' :: '-' :: '\n' :: rest) = some rest := by
      simp only [closeHere, startsWith3Dash]
      simpa using consumeWsNl_junction rest hr1
    simp only [List.nil_append, findClose, h1]
  | cons c cs ih =>
    intro hv
    simp only [hasSub, Bool.or_eq_false_iff] at hv
    have hch : closeHere (c :: (cs ++ '\n' :: '-' :: '-' :: '-' :: '\n' :: rest)) = none := by
      simp only [closeHere]
      have hcond : (decide (c = '\n') &&
          startsWith3Dash (cs ++ '\n' :: '-' :: '-' :: '-' :: '\n' :: rest)) = false := by
        cases hdec : decide (c = '\n')
        · simp
        · simp only [Bool.true_and]
          match cs with
          | [] => simp [startsWith3Dash]
          | [a] => simp [startsWith3Dash]
          | [a, b] => simp [startsWith3Dash]
          | a :: b :: c2 :: t2 =>
            cases hsw : startsWith3Dash ((a :: b :: c2 :: t2) ++
                '\n' :: '-' :: '-' :: '-' :: '\n' :: rest)
            · rfl
            · simp only [List.cons_append, startsWith3Dash, Bool.and_eq_true,
                decide_eq_true_eq] at hsw
              obtain ⟨⟨ha, hb2⟩, hc2⟩ := hsw
              subst ha
              subst hb2
              subst hc2
              rw [show hasSub (['-', '-', '-']) ('-' :: '-' :: '-' :: t2) = true by
                simp [hasSub, startsWithL]] at hv
              exact absurd hv.2 (by simp)
      rw [hcond]
      simp
    rw [List.cons_append, findClose, hch]
    exact ih hv.2

theorem findClose_none_of_no_dash3 (s : List Char)
    (h : hasSub (['-', '-', '-']) s = false) : findClose s = none := by
  induction s with
  | nil => rfl
  | cons c cs ih =>
    simp only [hasSub, Bool.or_eq_false_iff] at h
    have hch : closeHere (c :: cs) = none := by
      simp only [closeHere]
      have hcond : (decide (c = '\n') && startsWith3Dash cs) = false := by
        cases hsw : startsWith3Dash cs
        · simp
        · rw [hasSub_of_startsWith3Dash hsw] at h
          exact absurd h.2 (by simp)
      rw [hcond]
      simp
    simp only [findClose, hch]
    exact ih h.2

theorem findClose_jj_none (rest : List Char)
    (hr2 : hasSub (['-', '-', '-']) rest = false) :
    findClose ('-' :: '-' :: '-' :: '\n' :: rest) = none := by
  have h4 : findClose rest = none := findClose_none_of_no_dash3 rest hr2
  have hswr : startsWith3Dash rest = false := by
    cases hsw : startsWith3Dash rest
    · rfl
    · rw [hasSub_of_startsWith3Dash hsw] at hr2
      exact absurd hr2 (by simp)
  have hchn : closeHere ('\n' :: rest) = none := by
    simp [closeHere, hswr]
  have hd : ∀ u : List Char, closeHere ('-' :: u) = none := by
    intro u
    simp [closeHere]
  rw [findClose, hd]
  rw [findClose, hd]
  rw [findClose, hd]
  rw [findClose, hchn]
  exact h4

theorem nlSplits_body_elems (rest : List Char) :
    ∀ body c, c ∈ nlSplits (body ++ '\n' :: '-' :: '-' :: '-' :: '\n' :: rest) →
      (∃ v, v <:+ body ∧ c = v ++ '\n' :: '-' :: '-' :: '-' :: '\n' :: rest) ∨
        c = '-' :: '-' :: '-' :: '\n' :: rest := by
  intro body
  induction body with
  | nil =>
    intro c hc
    have hn : nlSplits ('\n' :: '-' :: '-' :: '-' :: '\n' :: rest) =
        ['-' :: '-' :: '-' :: '\n' :: rest] := by
      simp [nlSplits, show pyIsSpace '\n' = true from by decide,
        show pyIsSpace '-' = false from by decide]
    rw [List.nil_append, hn] at hc
    simp at hc
    exact Or.inr hc
  | cons b bs ih =>
    intro c hc
    by_cases hb : pyIsSpace b = true
    · simp only [List.cons_append, nlSplits, hb, if_true] at hc
      rcases List.mem_append.mp hc with h1 | h2
      · rcases ih c h1 with ⟨v, hv1, hv2⟩ | h
        · exact Or.inl ⟨v, hv1.trans (List.suffix_cons b bs), hv2⟩
        · exact Or.inr h
      · by_cases hbn : b = '\n'
        · simp [hbn] at h2
          subst h2
          exact Or.inl ⟨bs, List.suffix_cons b bs, rfl⟩
        · simp [hbn] at h2
    · rw [Bool.not_eq_true] at hb
      simp only [List.cons_append, nlSplits, hb] at hc
      simp at hc


theorem tryCloses_const (rest : List Char) :
    ∀ L : List (List Char), (∀ c ∈ L, findClose c = none ∨ findClose c = some rest) →
      (∃ c ∈ L, findClose c = some rest) → tryCloses L = some rest := by
  intro L
  induction L with
  | nil => simp
  | cons x xs ih =>
    intro hall hex
    rcases hall x (by simp) with hx | hx
    · simp only [tryCloses, hx]
      apply ih (fun c hc => hall c (by simp [hc]))
      rcases hex with ⟨c, hc1, hc2⟩
      rcases List.mem_cons.mp hc1 with rfl | hc1'
      · rw [hx] at hc2
        exact absurd hc2 (by simp)
      · exact ⟨c, hc1', hc2⟩
    · simp only [tryCloses, hx]

theorem matchFrontmatter_block (w body rest : List Char)
    (hw : ∀ c ∈ w, pyIsSpace c = true)
    (hb : hasSub (['-', '-', '-']) body = false)
    (hr1 : ∀ r0 rs, rest = r0 :: rs → pyIsSpace r0 = false)
    (hr2 : hasSub (['-', '-', '-']) rest = false) :
    matchFrontmatter
      (w ++ '-' :: '-' :: '-' :: '\n' :: (body ++ '\n' :: '-' :: '-' :: '-' :: '\n' :: rest)) =
      some rest := by
  have hdw : (w ++ '-' :: '-' :: '-' :: '\n' ::
      (body ++ '\n' :: '-' :: '-' :: '-' :: '\n' :: rest)).dropWhile pyIsSpace =
      '-' :: '-' :: '-' :: '\n' :: (body ++ '\n' :: '-' :: '-' :: '-' :: '\n' :: rest) := by
    rw [dropWhile_append_of_all w _ hw]
    simp [List.dropWhile_cons, show pyIsSpace '-' = false from by decide]
  simp only [matchFrontmatter, hdw]
  have hsw : startsWith3Dash ('-' :: '-' :: '-' :: '\n' ::
      (body ++ '\n' :: '-' :: '-' :: '-' :: '\n' :: rest)) = true := by
    simp [startsWith3Dash]
  rw [hsw]
  simp only [if_true, List.drop_succ_cons, List.drop_zero]
  have hnl : nlSplits ('\n' :: (body ++ '\n' :: '-' :: '-' :: '-' :: '\n' :: rest)) =
      nlSplits (body ++ '\n' :: '-' :: '-' :: '-' :: '\n' :: rest) ++
        [body ++ '\n' :: '-' :: '-' :: '-' :: '\n' :: rest] := by
    simp [nlSplits, show pyIsSpace '\n' = true from by decide]
  rw [hnl]
  apply tryCloses_const
  · intro c hc
    rcases List.mem_append.mp hc with h1 | h2
    · rcases nlSplits_body_elems rest body c h1 with ⟨v, hv1, hv2⟩ | h
      · subst hv2
        exact Or.inr (findClose_body_junction rest hr1 v (hasSub_suffix_false hb hv1))
      · subst h
        exact Or.inl (findClose_jj_none rest hr2)
    · rw [List.mem_singleton.mp h2]
      exact Or.inr (findClose_body_junction rest hr1 body hb)
  · exact ⟨body ++ '\n' :: '-' :: '-' :: '-' :: '\n' :: rest, by simp,
      findClose_body_junction rest hr1 body hb⟩

/-! ## Link rewriter lemmas -/

theorem scanAux_nil : ∀ n, scanAux n ([] : List Char) = [] := by
  intro n
  cases n <;> rfl

theorem takeWhile_append_stop {p : Char → Bool} :
    ∀ (d : List Char) (x : Char) (z : List Char), (∀ c ∈ d, p c = true) → p x = false →
      (d ++ x :: z).takeWhile p = d := by
  intro d
  induction d with
  | nil =>
    intro x z _ hx
    simp [List.takeWhile_cons, hx]
  | cons a as ih =>
    intro x z hall hx
    have ha : p a = true := hall a (by simp)
    simp only [List.cons_append, List.takeWhile_cons, ha, if_true]
    rw [ih x z (fun c hc => hall c (by simp [hc])) hx]

theorem dropWhile_append_stop {p : Char → Bool} :
    ∀ (d : List Char) (x : Char) (z : List Char), (∀ c ∈ d, p c = true) → p x = false →
      (d ++ x :: z).dropWhile p = x :: z := by
  intro d
  induction d with
  | nil =>
    intro x z _ hx
    simp [List.dropWhile_cons, hx]
  | cons a as ih =>
    intro x z hall hx
    have ha : p a = true := hall a (by simp)
    simp only [List.cons_append, List.dropWhile_cons, ha, if_true]
    exact ih x z (fun c hc => hall c (by simp [hc])) hx

theorem drop_length_takeWhile (p : Char → Bool) (l : List Char) :
    l.drop (l.takeWhile p).length = l.dropWhile p := by
  have h := List.takeWhile_append_dropWhile p l
  calc l.drop (l.takeWhile p).length
      = ((l.takeWhile p) ++ l.dropWhile p).drop (l.takeWhile p).length := by rw [h]
    _ = l.dropWhile p := List.drop_left _ _

theorem isMdM_ne_rparen {m : Char} (h : isMdM m = true) : m ≠ ')' := by
  rcases (by simpa [isMdM] using h : m = 'm' ∨ m = 'M') with rfl | rfl <;> decide

theorem isMdD_ne_rparen {m : Char} (h : isMdD m = true) : m ≠ ')' := by
  rcases (by simpa [isMdD] using h : m = 'd' ∨ m = 'D') with rfl | rfl <;> decide

/-- Characterization of a successful `\.md(?:#[^)]+)?\)` attempt: the
consumed group part `p.1` is everything up to the first `)` of `u`, it has
at least three characters, and starts with a `.md` window. -/
theorem tryMdClose_char : ∀ {u : List Char} {p : List Char × List Char},
    tryMdClose u = some p →
      u = p.1 ++ ')' :: p.2 ∧ (∀ c ∈ p.1, c ≠ ')') ∧ 3 ≤ p.1.length ∧ mdAtHead p.1 = true ∧
        closesAt p.1 = true := by
  intro u p h
  match u with
  | [] => simp [tryMdClose] at h
  | [a] => simp [tryMdClose] at h
  | [a, b] => simp [tryMdClose] at h
  | c1 :: m :: d :: v =>
    simp only [tryMdClose] at h
    by_cases hcond : (c1 = '.' && isMdM m && isMdD d) = true
    · rw [if_pos hcond] at h
      simp only [Bool.and_eq_true, decide_eq_true_eq] at hcond
      obtain ⟨⟨hc1, hm⟩, hd⟩ := hcond
      subst hc1
      cases v with
      | nil => simp at h
      | cons v0 w =>
        simp only [] at h
        by_cases hv0 : v0 = '#'
        · rw [if_pos hv0] at h
          subst hv0
          cases hdrop : w.drop ((w.takeWhile (fun c => c ≠ ')')).length) with
          | nil => rw [hdrop] at h; simp at h
          | cons w0 rest =>
            rw [hdrop] at h
            simp only [] at h
            by_cases hw0 : w0 = ')'
            · rw [if_pos hw0] at h
              subst hw0
              by_cases hrun : w.takeWhile (fun c => c ≠ ')') = []
              · rw [if_pos hrun] at h
                simp at h
              · rw [if_neg hrun] at h
                have hp := Option.some.inj h
                rw [drop_length_takeWhile] at hdrop
                have hw : w = (w.takeWhile (fun c => c ≠ ')')) ++ ')' :: rest := by
                  conv_lhs => rw [← List.takeWhile_append_dropWhile (fun c => c ≠ ')') w]
                  rw [hdrop]
                subst hp
                refine ⟨?_, ?_, by simp, ?_, ?_⟩
                · conv_lhs => rw [hw]
                  simp
                · intro c hc
                  simp only [List.mem_cons] at hc
                  rcases hc with rfl | rfl | rfl | rfl | hc
                  · decide
                  · exact isMdM_ne_rparen hm
                  · exact isMdD_ne_rparen hd
                  · decide
                  · have := List.mem_takeWhile_imp hc
                    simpa using this
                · simp [mdAtHead, hm, hd]
                · have hne : (w.takeWhile (fun c => c ≠ ')')).isEmpty = false := by
                    cases hq : w.takeWhile (fun c => c ≠ ')') with
                    | nil => exact absurd hq hrun
                    | cons x xs => rfl
                  have hv : closesAt ('.' :: m :: d :: '#' :: w.takeWhile (fun c => c ≠ ')')) =
                      (isMdM m && isMdD d &&
                        (false || !(w.takeWhile (fun c => c ≠ ')')).isEmpty)) := rfl
                  rw [hv, hm, hd, hne]
                  rfl
            · rw [if_neg hw0] at h
              simp at h
        · rw [if_neg hv0] at h
          by_cases hv0' : v0 = ')'
          · rw [if_pos hv0'] at h
            subst hv0'
            have hp := Option.some.inj h
            subst hp
            refine ⟨by simp, ?_, by simp, by simp [mdAtHead, hm, hd],
              by simp [closesAt, hm, hd]⟩
            intro c hc
            simp only [List.mem_cons] at hc
            rcases hc with rfl | rfl | rfl | hc
            · decide
            · exact isMdM_ne_rparen hm
            · exact isMdD_ne_rparen hd
            · simp at hc
          · rw [if_neg hv0'] at h
            simp at h
    · rw [if_neg hcond] at h
      simp at h

theorem scanTarget_some_len : ∀ (u acc : List Char) (p : List Char × List Char),
    scanTarget acc u = some p → p.2.length < u.length := by
  intro u
  induction u with
  | nil =>
    intro acc p h
    simp [scanTarget] at h
  | cons c cs ih =>
    intro acc p h
    rw [scanTarget] at h
    cases htc : tryMdClose (c :: cs) with
    | some q =>
      rw [htc] at h
      obtain ⟨hu, _, hlen3, _, _⟩ := tryMdClose_char htc
      have hq : p.2 = q.2 := by
        have h2 := Option.some.inj h
        rw [← h2]
      rw [hq]
      have hle : q.2.length + 4 ≤ (c :: cs).length := by
        rw [hu]
        simp only [List.length_append, List.length_cons]
        omega
      simp only [List.length_cons] at hle ⊢
      omega
    | none =>
      rw [htc] at h
      by_cases hc : c = ')'
      · rw [if_pos hc] at h
        simp at h
      · rw [if_neg hc] at h
        have := ih (c :: acc) p h
        simp only [List.length_cons]
        omega

theorem matchLink_some_len : ∀ (s : List Char) (q : List Char × List Char × List Char),
    matchLink s = some q → q.2.2.length < s.length := by
  intro s q h
  cases s with
  | nil => simp [matchLink] at h
  | cons c s' =>
    rw [matchLink] at h
    by_cases hc : c = '['
    · rw [if_pos hc] at h
      rw [matchLinkBody] at h
      by_cases hd0 : s'.takeWhile (fun c => c ≠ ']') = []
      · simp only [hd0, if_pos rfl] at h
        simp at h
      · simp only [if_neg hd0] at h
        cases hdw : s'.dropWhile (fun c => c ≠ ']') with
        | nil => rw [hdw] at h; simp at h
        | cons e1 t1 =>
          cases t1 with
          | nil => rw [hdw] at h; simp at h
          | cons e2 t2 =>
            cases t2 with
            | nil => rw [hdw] at h; simp at h
            | cons c2 cs =>
              rw [hdw] at h
              simp only [] at h
              by_cases hcond : (e1 = ']' && e2 = '(' && !(c2 = ')')) = true
              · rw [if_pos hcond] at h
                cases hst : scanTarget [c2] cs with
                | none => rw [hst] at h; simp at h
                | some p =>
                  rw [hst] at h
                  have hp := Option.some.inj h
                  have hlen := scanTarget_some_len cs [c2] p hst
                  have hsplit : (s'.takeWhile (fun c => c ≠ ']')).length +
                      (s'.dropWhile (fun c => c ≠ ']')).length = s'.length := by
                    rw [← List.length_append, List.takeWhile_append_dropWhile]
                  rw [hdw] at hsplit
                  have hd1 : 1 ≤ (s'.takeWhile (fun c => c ≠ ']')).length := by
                    cases hh : s'.takeWhile (fun c => c ≠ ']') with
                    | nil => exact absurd hh hd0
                    | cons x xs => simp
                  have hq : q.2.2 = p.2 := by rw [← hp]
                  rw [hq]
                  simp only [List.length_cons] at hsplit ⊢
                  omega
              · rw [if_neg hcond] at h
                simp at h
    · rw [if_neg hc] at h
      simp at h

theorem scanAux_fuel : ∀ (n m : Nat) (s : List Char), s.length ≤ n → s.length ≤ m →
    scanAux n s = scanAux m s := by
  intro n
  induction n with
  | zero =>
    intro m s hn _
    have hs : s = [] := List.eq_nil_of_length_eq_zero (by omega)
    subst hs
    rw [scanAux_nil, scanAux_nil]
  | succ n' ih =>
    intro m s hn hm
    cases s with
    | nil => rw [scanAux_nil, scanAux_nil]
    | cons c cs =>
      obtain ⟨m', rfl⟩ : ∃ m', m = m' + 1 := by
        refine ⟨m - 1, ?_⟩
        simp only [List.length_cons] at hm
        omega
      rw [scanAux, scanAux]
      cases hml : matchLink (c :: cs) with
      | some q =>
        obtain ⟨d, t, rest⟩ := q
        have hlen := matchLink_some_len _ _ hml
        simp only [List.length_cons] at hlen hn hm
        simp only [hml]
        rw [ih m' rest (by omega) (by omega)]
      | none =>
        simp only [List.length_cons] at hn hm
        simp only [hml]
        rw [ih m' cs (by omega) (by omega)]

theorem convert_eq_scanAux (s : List Char) (n : Nat) (h : s.length ≤ n) :
    convert_md_links_to_wikilinks s = scanAux n s :=
  scanAux_fuel s.length n s le_rfl h

theorem convert_cons_match {s d t rest : List Char}
    (h : matchLink s = some (d, t, rest)) :
    convert_md_links_to_wikilinks s =
      wikiReplacement d t ++ convert_md_links_to_wikilinks rest := by
  cases s with
  | nil => simp [matchLink] at h
  | cons c cs =>
    have hlen := matchLink_some_len _ _ h
    simp only [List.length_cons] at hlen
    rw [convert_md_links_to_wikilinks, show (c :: cs).length = cs.length + 1 from rfl, scanAux]
    simp only [h]
    rw [← convert_eq_scanAux rest cs.length (by omega)]

theorem convert_cons_nomatch {c : Char} {cs : List Char} (h : matchLink (c :: cs) = none) :
    convert_md_links_to_wikilinks (c :: cs) = c :: convert_md_links_to_wikilinks cs := by
  rw [convert_md_links_to_wikilinks, show (c :: cs).length = cs.length + 1 from rfl, scanAux]
  simp only [h]
  rfl

theorem matchLink_not_lbracket {c : Char} (cs : List Char) (h : ¬ c = '[') :
    matchLink (c :: cs) = none := by
  rw [matchLink, if_neg h]

theorem convert_append_clean : ∀ (u v : List Char), (∀ c ∈ u, c ≠ '[') →
    convert_md_links_to_wikilinks (u ++ v) = u ++ convert_md_links_to_wikilinks v := by
  intro u
  induction u with
  | nil => simp
  | cons c cs ih =>
    intro v hu
    have hc : ¬ c = '[' := hu c (by simp)
    rw [List.cons_append, convert_cons_nomatch (matchLink_not_lbracket _ hc)]
    rw [ih v (fun x hx => hu x (by simp [hx]))]
    rfl

theorem first_rparen_uniq : ∀ (y y' z z' : List Char), (∀ c ∈ y, c ≠ ')') →
    (∀ c ∈ y', c ≠ ')') → y ++ ')' :: z = y' ++ ')' :: z' → y = y' ∧ z = z' := by
  intro y
  induction y with
  | nil =>
    intro y' z z' _ hy' heq
    cases y' with
    | nil =>
      simp only [List.nil_append] at heq
      injection heq with h1 h2
      exact ⟨rfl, h2⟩
    | cons a as =>
      simp only [List.nil_append, List.cons_append] at heq
      injection heq with h1 h2
      exact absurd h1.symm (hy' a (by simp))
  | cons b bs ih =>
    intro y' z z' hy hy' heq
    cases y' with
    | nil =>
      simp only [List.cons_append, List.nil_append] at heq
      injection heq with h1 h2
      exact absurd h1 (hy b (by simp))
    | cons a as =>
      simp only [List.cons_append] at heq
      injection heq with h1 h2
      obtain ⟨hy1, hz⟩ := ih as z z' (fun c hc => hy c (by simp [hc]))
        (fun c hc => hy' c (by simp [hc])) h2
      exact ⟨by rw [h1, hy1], hz⟩

/-- If the input to `tryMdClose` is a run of non-`)` characters followed by
`)`, a successful close consumes exactly that run. -/
theorem tryMdClose_split {y z : List Char} {p : List Char × List Char}
    (hy : ∀ c ∈ y, c ≠ ')') (h : tryMdClose (y ++ ')' :: z) = some p) :
    p.1 = y ∧ p.2 = z := by
  obtain ⟨hu, hp1, _, _, _⟩ := tryMdClose_char h
  obtain ⟨h1, h2⟩ := first_rparen_uniq y p.1 z p.2 hy hp1 hu
  exact ⟨h1.symm, h2.symm⟩

/-- A valid anchor for group 2: either absent, or `#` followed by a nonempty
run of non-`)` characters. -/
def ValidAnchor (anch : List Char) : Prop :=
  anch = [] ∨ ∃ a, anch = '#' :: a ∧ a ≠ [] ∧ (∀ c ∈ a, c ≠ ')')

theorem tryMdClose_valid (m d2 : Char) (hm : isMdM m = true) (hd : isMdD d2 = true)
    (anch z : List Char) (hanch : ValidAnchor anch) :
    tryMdClose ('.' :: m :: d2 :: (anch ++ ')' :: z)) = some ('.' :: m :: d2 :: anch, z) := by
  rcases hanch with rfl | ⟨a, rfl, ha1, ha2⟩
  · simp [tryMdClose, hm, hd]
  · have hrun : (a ++ ')' :: z).takeWhile (fun c => !decide (c = ')')) = a :=
      takeWhile_append_stop a ')' z (fun c hc => by simp [ha2 c hc]) (by decide)
    simp [tryMdClose, hm, hd, hrun, List.drop_left, ha1]

theorem scanTarget_full (m d2 : Char) (hm : isMdM m = true) (hd : isMdD d2 = true)
    (anch z : List Char) (hanch : ValidAnchor anch) :
    ∀ (s1 acc : List Char), (∀ c ∈ s1, c ≠ ')') →
      scanTarget acc (s1 ++ '.' :: m :: d2 :: (anch ++ ')' :: z)) =
        some (acc.reverse ++ (s1 ++ '.' :: m :: d2 :: anch), z) := by
  intro s1
  induction s1 with
  | nil =>
    intro acc _
    rw [List.nil_append, scanTarget, tryMdClose_valid m d2 hm hd anch z hanch]
    simp
  | cons b bs ih =>
    intro acc hs1
    rw [List.cons_append, scanTarget]
    cases htc : tryMdClose (b :: (bs ++ '.' :: m :: d2 :: (anch ++ ')' :: z))) with
    | some q =>
      have hshape : b :: (bs ++ '.' :: m :: d2 :: (anch ++ ')' :: z)) =
          ((b :: bs) ++ '.' :: m :: d2 :: anch) ++ ')' :: z := by
        simp
      rw [hshape] at htc
      have hy : ∀ c ∈ (b :: bs) ++ '.' :: m :: d2 :: anch, c ≠ ')' := by
        intro c hc
        rcases List.mem_append.mp hc with hc1 | hc2
        · exact hs1 c hc1
        · simp only [List.mem_cons] at hc2
          rcases hc2 with rfl | rfl | rfl | hc3
          · decide
          · exact isMdM_ne_rparen hm
          · exact isMdD_ne_rparen hd
          · rcases hanch with rfl | ⟨a, rfl, _, ha2⟩
            · simp at hc3
            · simp only [List.mem_cons] at hc3
              rcases hc3 with rfl | hc4
              · decide
              · exact ha2 c hc4
      obtain ⟨hq1, hq2⟩ := tryMdClose_split hy htc
      simp [hq1, hq2]
    | none =>
      have hb : ¬ b = ')' := hs1 b (by simp)
      simp only [if_neg hb]
      rw [ih (b :: acc) (fun c hc => hs1 c (by simp [hc]))]
      simp

theorem matchLink_at_link (d stem : List Char) (m d2 : Char) (anch post : List Char)
    (hd1 : d ≠ []) (hd2 : ∀ c ∈ d, c ≠ ']')
    (hstem1 : stem ≠ []) (hstem2 : ∀ c ∈ stem, c ≠ ')')
    (hm : isMdM m = true) (hdd : isMdD d2 = true) (hanch : ValidAnchor anch) :
    matchLink ('[' :: (d ++ ']' :: '(' :: ((stem ++ '.' :: m :: d2 :: anch) ++ ')' :: post))) =
      some (d, stem ++ '.' :: m :: d2 :: anch, post) := by
  rw [matchLink, if_pos rfl, matchLinkBody]
  have htw : (d ++ ']' :: '(' :: ((stem ++ '.' :: m :: d2 :: anch) ++ ')' :: post)).takeWhile
      (fun c => c ≠ ']') = d :=
    takeWhile_append_stop d ']' _ (fun c hc => by simpa using hd2 c hc) (by decide)
  have hdwl : (d ++ ']' :: '(' :: ((stem ++ '.' :: m :: d2 :: anch) ++ ')' :: post)).dropWhile
      (fun c => c ≠ ']') = ']' :: '(' :: ((stem ++ '.' :: m :: d2 :: anch) ++ ')' :: post) :=
    dropWhile_append_stop d ']' _ (fun c hc => by simpa using hd2 c hc) (by decide)
  simp only [htw, if_neg hd1, hdwl]
  cases stem with
  | nil => exact absurd rfl hstem1
  | cons t0 trest =>
    have ht0 : ¬ t0 = ')' := hstem2 t0 (by simp)
    have hshape : ((t0 :: trest) ++ '.' :: m :: d2 :: anch) ++ ')' :: post =
        t0 :: (trest ++ '.' :: m :: d2 :: (anch ++ ')' :: post)) := by
      simp
    rw [hshape]
    have hst := scanTarget_full m d2 hm hdd anch post hanch trest [t0]
      (fun c hc => hstem2 c (by simp [hc]))
    simp [ht0, hst]

theorem mdAtHead_append {y : List Char} (w : List Char) (h : mdAtHead y = true) :
    mdAtHead (y ++ w) = true := by
  match y with
  | [] => simp [mdAtHead] at h
  | [a] => simp [mdAtHead] at h
  | [a, b] => simp [mdAtHead] at h
  | a :: b :: c :: t => simpa [mdAtHead] using h

theorem hasMdSub_mono : ∀ {s v : List Char}, v <:+ s → hasMdSub v = true → hasMdSub s = true := by
  intro s
  induction s with
  | nil =>
    intro v hv h
    rw [List.suffix_nil.mp hv] at h
    exact h
  | cons c cs ih =>
    intro v hv h
    rcases List.suffix_cons_iff.mp hv with rfl | hv'
    · exact h
    · have := ih hv' h
      simp [hasMdSub, this]

theorem scanTarget_some_hasMd : ∀ (u acc : List Char) (p : List Char × List Char),
    scanTarget acc u = some p → hasMdSub u = true := by
  intro u
  induction u with
  | nil =>
    intro acc p h
    simp [scanTarget] at h
  | cons c cs ih =>
    intro acc p h
    rw [scanTarget] at h
    cases htc : tryMdClose (c :: cs) with
    | some q =>
      obtain ⟨hu, _, _, hmd, _⟩ := tryMdClose_char htc
      have hh : mdAtHead (c :: cs) = true := by
        rw [hu]
        exact mdAtHead_append _ hmd
      simp [hasMdSub, hh]
    | none =>
      rw [htc] at h
      by_cases hc : c = ')'
      · rw [if_pos hc] at h
        simp at h
      · rw [if_neg hc] at h
        have := ih (c :: acc) p h
        simp [hasMdSub, this]

theorem matchLink_some_hasMd : ∀ (s : List Char) (q : List Char × List Char × List Char),
    matchLink s = some q → hasMdSub s = true := by
  intro s q h
  cases s with
  | nil => simp [matchLink] at h
  | cons c s' =>
    rw [matchLink] at h
    by_cases hc : c = '['
    · rw [if_pos hc] at h
      rw [matchLinkBody] at h
      by_cases hd0 : s'.takeWhile (fun c => c ≠ ']') = []
      · simp only [hd0, if_pos rfl] at h
        simp at h
      · simp only [if_neg hd0] at h
        cases hdw : s'.dropWhile (fun c => c ≠ ']') with
        | nil => rw [hdw] at h; simp at h
        | cons e1 t1 =>
          cases t1 with
          | nil => rw [hdw] at h; simp at h
          | cons e2 t2 =>
            cases t2 with
            | nil => rw [hdw] at h; simp at h
            | cons c2 cs =>
              rw [hdw] at h
              simp only [] at h
              by_cases hcond : (e1 = ']' && e2 = '(' && !(c2 = ')')) = true
              · rw [if_pos hcond] at h
                cases hst : scanTarget [c2] cs with
                | none => rw [hst] at h; simp at h
                | some p =>
                  have hmd := scanTarget_some_hasMd cs [c2] p hst
                  have hsplit : (s'.takeWhile (fun c => c ≠ ']')) ++ (e1 :: e2 :: c2 :: cs) = s' := by
                    rw [← hdw]
                    exact List.takeWhile_append_dropWhile _ _
                  have hsuf : cs <:+ c :: s' := by
                    refine ⟨c :: ((s'.takeWhile (fun c => c ≠ ']')) ++ [e1, e2, c2]), ?_⟩
                    rw [List.cons_append, List.append_assoc]
                    simp only [List.cons_append, List.nil_append]
                    rw [hsplit]
                  exact hasMdSub_mono hsuf hmd
              · rw [if_neg hcond] at h
                simp at h
    · rw [if_neg hc] at h
      simp at h

theorem convert_id_of_no_md : ∀ s, hasMdSub s = false → convert_md_links_to_wikilinks s = s := by
  intro s
  induction s with
  | nil => intro _; rfl
  | cons c cs ih =>
    intro h
    have h2 : hasMdSub cs = false := by
      rw [hasMdSub, Bool.or_eq_false_iff] at h
      exact h.2
    have hml : matchLink (c :: cs) = none := by
      cases hm : matchLink (c :: cs) with
      | none => rfl
      | some q =>
        have ht := matchLink_some_hasMd _ _ hm
        rw [ht] at h
        exact absurd h (by simp)
    rw [convert_cons_nomatch hml, ih h2]

theorem tryMdClose_head_rparen {z : List Char} : tryMdClose (')' :: z) = none := by
  match z with
  | [] => rfl
  | [a] => rfl
  | a :: b :: v => simp [tryMdClose]

theorem scanTarget_none (z : List Char) : ∀ (s1 acc : List Char), (∀ c ∈ s1, c ≠ ')') →
    hasClose s1 = false → scanTarget acc (s1 ++ ')' :: z) = none := by
  intro s1
  induction s1 with
  | nil =>
    intro acc _ _
    rw [List.nil_append, scanTarget, tryMdClose_head_rparen]
    rw [if_pos rfl]
  | cons b bs ih =>
    intro acc hs1 hcl
    rw [hasClose, Bool.or_eq_false_iff] at hcl
    rw [List.cons_append, scanTarget]
    cases htc : tryMdClose (b :: (bs ++ ')' :: z)) with
    | some q =>
      exfalso
      have heq : (b :: bs) ++ ')' :: z = b :: (bs ++ ')' :: z) := by simp
      obtain ⟨hq1, _⟩ := tryMdClose_split (y := b :: bs) (z := z) hs1 (by rw [heq]; exact htc)
      obtain ⟨_, _, _, _, hcl1⟩ := tryMdClose_char htc
      rw [hq1] at hcl1
      rw [hcl.1] at hcl1
      simp at hcl1
    | none =>
      have hb : ¬ b = ')' := hs1 b (by simp)
      simp only [if_neg hb]
      exact ih (b :: acc) (fun c hc => hs1 c (by simp [hc])) hcl.2

theorem matchLink_none_clean (d t post : List Char)
    (hd2 : ∀ c ∈ d, c ≠ ']') (ht1 : ∀ c ∈ t, c ≠ ')')
    (htcl : hasClose (t.drop 1) = false) :
    matchLink ('[' :: (d ++ ']' :: '(' :: (t ++ ')' :: post))) = none := by
  rw [matchLink, if_pos rfl, matchLinkBody]
  have htw : (d ++ ']' :: '(' :: (t ++ ')' :: post)).takeWhile (fun c => c ≠ ']') = d :=
    takeWhile_append_stop d ']' _ (fun c hc => by simpa using hd2 c hc) (by decide)
  have hdwl : (d ++ ']' :: '(' :: (t ++ ')' :: post)).dropWhile (fun c => c ≠ ']') =
      ']' :: '(' :: (t ++ ')' :: post) :=
    dropWhile_append_stop d ']' _ (fun c hc => by simpa using hd2 c hc) (by decide)
  by_cases hd0 : d = []
  · subst hd0
    simp
  · simp only [htw, if_neg hd0, hdwl]
    cases t with
    | nil => simp
    | cons t0 trest =>
      have ht0 : ¬ t0 = ')' := ht1 t0 (by simp)
      have hshape : (t0 :: trest) ++ ')' :: post = t0 :: (trest ++ ')' :: post) := by simp
      rw [hshape]
      have hst : scanTarget [t0] (trest ++ ')' :: post) = none :=
        scanTarget_none post trest [t0] (fun c hc => ht1 c (by simp [hc])) (by simpa using htcl)
      simp [ht0, hst]

/-! # Claim theorems -/

/-- C1 counterexample: the display text is stripped of surrounding whitespace
before comparison and before being used as the alias; on `[ x ](x.md)` the
code emits `[[x]]` rather than the claimed `[[x| x ]]` with the original
display text ` x ` as alias. -/
theorem link_rewriter_strips_display_cex :
    convert_md_links_to_wikilinks (("[ x ](x.md)").toList) = (("[[x]]").toList) ∧
      (("[[x]]").toList) ≠ (("[[x| x ]]").toList) := by
  constructor
  · decide
  · decide

/-- C1 (amended): for every text of the form `pre [display](stem.md anchor) post`
(display nonempty without `]`, stem nonempty without `)`, `.md` case-insensitive,
anchor absent or `#` plus a nonempty run without `)`, and no `[` in `pre`), the
rewriter replaces the link with the wikilink derived by dropping the anchor,
URL-decoding, taking the basename, stripping the `.md` extension and
normalizing backslashes; the emitted form is `[[name]]` when the name equals
the WHITESPACE-STRIPPED display text and `[[name|display']]` otherwise, where
the alias `display'` is the STRIPPED display text (not the original), which is
what the counterexample forces; the rest of the text is processed
independently. -/
theorem link_rewriter_spec (pre d stem : List Char) (m d2 : Char) (anch post : List Char)
    (hpre : ∀ c ∈ pre, c ≠ '[') (hd1 : d ≠ []) (hd2 : ∀ c ∈ d, c ≠ ']')
    (hstem1 : stem ≠ []) (hstem2 : ∀ c ∈ stem, c ≠ ')')
    (hm : isMdM m = true) (hdd : isMdD d2 = true) (hanch : ValidAnchor anch) :
    convert_md_links_to_wikilinks
        (pre ++ '[' :: (d ++ ']' :: '(' :: ((stem ++ '.' :: m :: d2 :: anch) ++ ')' :: post))) =
      pre ++ wikiReplacement d (stem ++ '.' :: m :: d2 :: anch) ++
        convert_md_links_to_wikilinks post ∧
    wikiReplacement d (stem ++ '.' :: m :: d2 :: anch) =
      (if pyStrip d = deriveName (stem ++ '.' :: m :: d2 :: anch) then
        '[' :: '[' :: deriveName (stem ++ '.' :: m :: d2 :: anch) ++ [']', ']']
      else
        '[' :: '[' :: deriveName (stem ++ '.' :: m :: d2 :: anch) ++
          '|' :: pyStrip d ++ [']', ']']) := by
  constructor
  · rw [convert_append_clean pre _ hpre]
    rw [convert_cons_match
      (matchLink_at_link d stem m d2 anch post hd1 hd2 hstem1 hstem2 hm hdd hanch)]
    rw [List.append_assoc]
  · rfl

/-- C1 witness. -/
theorem link_rewriter_spec_witness :
    convert_md_links_to_wikilinks
        (([] : List Char) ++ '[' ::
          (['A'] ++ ']' :: '(' :: ((['T'] ++ '.' :: 'm' :: 'd' :: ([] : List Char)) ++
            ')' :: ([] : List Char)))) =
      ([] : List Char) ++ wikiReplacement (['A']) (['T'] ++ '.' :: 'm' :: 'd' :: ([] : List Char)) ++
        convert_md_links_to_wikilinks ([] : List Char) :=
  (link_rewriter_spec [] ['A'] ['T'] 'm' 'd' [] []
    (by simp) (by decide) (by decide) (by decide) (by decide) (by decide) (by decide)
    (Or.inl rfl)).1

/-- C7 counterexample: the target `a#b.md` does not end in `.md` once its
anchor fragment `#b.md` is removed, yet the Link Rewriter converts
`[x](a#b.md)` to `[[a|x]]` instead of leaving it untouched (the regex accepts
any `.md` occurrence that is terminal or followed by an anchor). -/
theorem link_rewriter_anchor_cex :
    convert_md_links_to_wikilinks (("[x](a#b.md)").toList) = (("[[a|x]]").toList) ∧
      (("[[a|x]]").toList) ≠ (("[x](a#b.md)").toList) := by
  constructor
  · decide
  · decide

/-- C7 (amended): any text containing no case-insensitive `.md` substring is
returned verbatim (so external URLs, images and anchor-only targets without
`.md` are untouched); moreover a single inline link whose target has no
position (after its first character) where `.md` is terminal or followed by a
`#` anchor is copied verbatim while the rest of the text is processed.  The
counterexample forces the weakening from "target does not end in `.md` after
anchor removal" to this regex-accurate condition. -/
theorem link_rewriter_untouched_spec :
    (∀ s, hasMdSub s = false → convert_md_links_to_wikilinks s = s) ∧
    (∀ pre d t post : List Char, (∀ c ∈ pre, c ≠ '[') → (∀ c ∈ d, c ≠ ']') →
      (∀ c ∈ d, c ≠ '[') → (∀ c ∈ t, c ≠ ')') → (∀ c ∈ t, c ≠ '[') →
      hasClose (t.drop 1) = false →
      convert_md_links_to_wikilinks (pre ++ '[' :: (d ++ ']' :: '(' :: (t ++ ')' :: post))) =
        pre ++ '[' :: (d ++ ']' :: '(' :: (t ++ ')' :: convert_md_links_to_wikilinks post))) := by
  refine ⟨convert_id_of_no_md, ?_⟩
  intro pre d t post hpre hd1 hd2 ht1 ht2 hcl
  rw [convert_append_clean pre _ hpre]
  rw [convert_cons_nomatch (matchLink_none_clean d t post hd1 ht1 hcl)]
  have hshape : d ++ ']' :: '(' :: (t ++ ')' :: post) = (d ++ ']' :: '(' :: t) ++ ')' :: post := by
    simp
  rw [hshape]
  rw [convert_append_clean (d ++ ']' :: '(' :: t) (')' :: post)
    (by
      intro c hc
      rcases List.mem_append.mp hc with h1 | h2
      · exact hd2 c h1
      · simp only [List.mem_cons] at h2
        rcases h2 with rfl | rfl | h3
        · decide
        · decide
        · exact ht2 c h3)]
  rw [convert_cons_nomatch (matchLink_not_lbracket post (by decide))]
  simp

/-- C7 witness. -/
theorem link_rewriter_untouched_witness :
    convert_md_links_to_wikilinks (("[x](http://example.com)").toList) =
      (("[x](http://example.com)").toList) :=
  link_rewriter_untouched_spec.1 _ (by decide)

/-- C2 counterexample: a document consisting only of a frontmatter block with
no newline after the closing `---` is NOT reduced to the empty string (the
regex requires `\n+` after the closing delimiter), while the same document
with a final newline is. -/
theorem frontmatter_stripper_requires_final_newline_cex :
    remove_frontmatter (("---\ntitle: x\n---").toList) = (("---\ntitle: x\n---").toList) ∧
      remove_frontmatter (("---\ntitle: x\n---\n").toList) = [] := by
  constructor
  · decide
  · decide

/-- C2 (amended): if the text begins, after optional leading whitespace, with
a `---` line, arbitrary content, and a closing `---` line TERMINATED BY A
NEWLINE, the whole block (leading whitespace, delimiters, trailing newline
run) is removed and the remainder returned; a text that does not begin
(after whitespace) with `---` — in particular one whose delimiter lines occur
only later — is returned unmodified; a frontmatter-only document ending in a
newline reduces to the empty string.  (The first part is stated for content
and remainder not containing `---` and remainder not opening with
whitespace; the closing newline requirement is what the counterexample
forces.) -/
theorem frontmatter_stripper_spec :
    (∀ w body rest : List Char,
      (∀ c ∈ w, pyIsSpace c = true) →
      hasSub (['-', '-', '-']) body = false →
      (∀ r0 rs, rest = r0 :: rs → pyIsSpace r0 = false) →
      hasSub (['-', '-', '-']) rest = false →
      remove_frontmatter
        (w ++ '-' :: '-' :: '-' :: '\n' ::
          (body ++ '\n' :: '-' :: '-' :: '-' :: '\n' :: rest)) = rest) ∧
    (∀ t, startsWith3Dash (t.dropWhile pyIsSpace) = false → remove_frontmatter t = t) ∧
    remove_frontmatter (("---\ntitle: x\n---\n").toList) = [] := by
  refine ⟨?_, remove_frontmatter_of_no_dashes, by decide⟩
  intro w body rest hw hb hr1 hr2
  simp only [remove_frontmatter, matchFrontmatter_block w body rest hw hb hr1 hr2,
    Option.getD_some]

/-- C2 witness. -/
theorem frontmatter_stripper_spec_witness :
    remove_frontmatter
      (([] : List Char) ++ '-' :: '-' :: '-' :: '\n' ::
        (['t', 'i', 't', 'l', 'e'] ++ '\n' :: '-' :: '-' :: '-' :: '\n' ::
          ['B', 'o', 'd', 'y'])) = ['B', 'o', 'd', 'y'] :=
  frontmatter_stripper_spec.1 [] (['t', 'i', 't', 'l', 'e']) (['B', 'o', 'd', 'y'])
    (by intro c hc; simp at hc)
    (by decide)
    (by
      intro r0 rs h
      injection h with h1 h2
      subst h1
      decide)
    (by decide)

/-- C4: the Filename Resolver returns the desired name unchanged when it is
unused; otherwise it returns `stem-k.ext` for the least `k ≥ 1` whose
candidate is unused (all smaller candidates being used), probing in
increasing order.  In particular `{"Note.md"}` with desired `"Note.md"`
yields `"Note-1.md"`, and `{"Note.md","Note-1.md"}` yields `"Note-2.md"`. -/
theorem filename_resolver_first_unused (existing : List (List Char)) (filename : List Char) :
    (filename ∉ existing → ensure_unique_path existing filename = filename) ∧
    (filename ∈ existing →
      ∃ k, 1 ≤ k ∧
        candidateName (splitext filename).1 (splitext filename).2 k ∉ existing ∧
        (∀ j, 1 ≤ j → j < k →
          candidateName (splitext filename).1 (splitext filename).2 j ∈ existing) ∧
        ensure_unique_path existing filename =
          candidateName (splitext filename).1 (splitext filename).2 k) ∧
    ensure_unique_path [("Note.md".toList)] ("Note.md".toList) = ("Note-1.md".toList) ∧
    ensure_unique_path [("Note.md".toList), ("Note-1.md".toList)] ("Note.md".toList) =
      ("Note-2.md".toList) := by
  refine ⟨?_, ?_, by decide, by decide⟩
  · intro h
    simp only [ensure_unique_path, if_neg h]
  · intro h
    obtain ⟨k, h1, h2, h3, h4, _⟩ := ensure_unique_core existing filename h
    exact ⟨k, h1, h2, h3, h4⟩

/-- C4 witness. -/
theorem filename_resolver_first_unused_witness :
    ("A.md".toList) ∉ [("B.md".toList)] ∧
    ensure_unique_path [("B.md".toList)] ("A.md".toList) = ("A.md".toList) :=
  ⟨by decide, (filename_resolver_first_unused [("B.md".toList)] ("A.md".toList)).1 (by decide)⟩

/-- C10: the probe loop of the Filename Resolver terminates: some candidate
`stem-k.ext` with `1 ≤ k ≤ |existing| + 1` is always unused, and the resolver
returns the original name when unused, otherwise the candidate of the least
unused index. -/
theorem filename_resolver_terminates (existing : List (List Char)) (filename : List Char) :
    (∃ k, 1 ≤ k ∧ k ≤ existing.length + 1 ∧
      candidateName (splitext filename).1 (splitext filename).2 k ∉ existing) ∧
    (filename ∉ existing → ensure_unique_path existing filename = filename) ∧
    (filename ∈ existing →
      ∃ k, 1 ≤ k ∧ k ≤ existing.length + 1 ∧
        candidateName (splitext filename).1 (splitext filename).2 k ∉ existing ∧
        (∀ j, 1 ≤ j → j < k →
          candidateName (splitext filename).1 (splitext filename).2 j ∈ existing) ∧
        ensure_unique_path existing filename =
          candidateName (splitext filename).1 (splitext filename).2 k) := by
  refine ⟨exists_free_candidate existing _ _, ?_, ?_⟩
  · intro h
    simp only [ensure_unique_path, if_neg h]
  · intro h
    obtain ⟨k, h1, h2, h3, h4, h5⟩ := ensure_unique_core existing filename h
    exact ⟨k, h1, h5, h2, h3, h4⟩

/-- C10 witness. -/
theorem filename_resolver_terminates_witness :
    ("A.md".toList) ∉ [("C.md".toList)] ∧
    ensure_unique_path [("C.md".toList)] ("A.md".toList) = ("A.md".toList) :=
  ⟨by decide,
    (filename_resolver_terminates [("C.md".toList)] ("A.md".toList)).2.1 (by decide)⟩

/-- C3 counterexample: the frontmatter stripper is not idempotent.  On
`"---\na\n---\n---\nb\n---\n"` one application leaves `"---\nb\n---\n"`,
which a second application strips to `""`. -/
theorem frontmatter_stripper_not_idempotent_cex :
    remove_frontmatter (remove_frontmatter (("---\na\n---\n---\nb\n---\n").toList)) ≠
      remove_frontmatter (("---\na\n---\n---\nb\n---\n").toList) := by
  decide

/-- C3 (amended): applying the stripper twice equals applying it once for
every text whose once-stripped result does not begin, after optional leading
whitespace, with a `---` line; in general a second application may strip a
further block. -/
theorem frontmatter_stripper_conditionally_idempotent (t : List Char)
    (h : startsWith3Dash ((remove_frontmatter t).dropWhile pyIsSpace) = false) :
    remove_frontmatter (remove_frontmatter t) = remove_frontmatter t :=
  remove_frontmatter_of_no_dashes _ h

/-- C3 witness. -/
theorem frontmatter_stripper_conditionally_idempotent_witness :
    startsWith3Dash ((remove_frontmatter (("---\nx\n---\nbody").toList)).dropWhile pyIsSpace)
      = false ∧
    remove_frontmatter (remove_frontmatter (("---\nx\n---\nbody").toList)) =
      remove_frontmatter (("---\nx\n---\nbody").toList) :=
  ⟨by decide, frontmatter_stripper_conditionally_idempotent _ (by decide)⟩

/-- C6: the Breadcrumb Injector returns the text unchanged when the relative
parent path has no named segments (empty, `.`, or only empty/`.` segments —
i.e. it denotes the root); otherwise it prepends a single line
`**Parent:** [[seg1]] > ... > [[segN]]` followed by a blank line.  For
`"A/B"` the line is `**Parent:** [[A]] > [[B]]`. -/
theorem breadcrumb_injector_spec :
    (∀ content parent, breadcrumbParts parent = [] →
      add_breadcrumb content parent = content) ∧
    (∀ content parent, breadcrumbParts parent ≠ [] →
      add_breadcrumb content parent =
        ("**Parent:** ".toList) ++ breadcrumbLinks (breadcrumbParts parent) ++
          ('\n' :: '\n' :: content)) ∧
    (∀ content, add_breadcrumb content (("A/B").toList) =
      (("**Parent:** [[A]] > [[B]]").toList) ++ ('\n' :: '\n' :: content)) := by
  refine ⟨?_, ?_, fun content => rfl⟩
  · intro content parent hp
    by_cases h1 : parent = [] ∨ parent = ['.']
    · rcases h1 with h1 | h1 <;> subst h1 <;> rfl
    · push_neg at h1
      simp [add_breadcrumb, h1.1, h1.2, hp]
  · intro content parent hp
    have h1 : parent ≠ [] := by
      intro he
      subst he
      exact hp (by decide)
    have h2 : parent ≠ ['.'] := by
      intro he
      subst he
      exact hp (by decide)
    simp [add_breadcrumb, h1, h2, hp]

/-- C6 witness. -/
theorem breadcrumb_injector_spec_witness :
    breadcrumbParts (("./.").toList) = [] ∧
    add_breadcrumb (("body").toList) (("./.").toList) = (("body").toList) ∧
    breadcrumbParts (("Projects").toList) ≠ [] ∧
    add_breadcrumb (("body").toList) (("Projects").toList) =
      (("**Parent:** [[Projects]]\n\nbody").toList) := by
  refine ⟨by decide, breadcrumb_injector_spec.1 _ _ (by decide), by decide, ?_⟩
  rw [breadcrumb_injector_spec.2.1 _ _ (by decide)]
  decide

/-! ## Orchestrator lemmas -/

theorem length_filter_split {α : Type} (p : α → Bool) : ∀ l : List α,
    (l.filter p).length + (l.filter (fun a => !p a)).length = l.length := by
  intro l
  induction l with
  | nil => rfl
  | cons a as ih =>
    by_cases h : p a = true
    · simp [List.filter_cons, h]
      omega
    · rw [Bool.not_eq_true] at h
      simp [List.filter_cons, h]
      omega

theorem process_file_model_facts (outputFolder : List Char) (st0 : RunState) (f : InputFile) :
    (process_file_model outputFolder st0 f).mdCount = st0.mdCount ∧
    (process_file_model outputFolder st0 f).assetCount = st0.assetCount ∧
    (∀ L ∈ st0.log, L ∈ (process_file_model outputFolder st0 f).log) ∧
    (∀ e, f.readResult = Except.error e →
      readWarn f.path e ∈ (process_file_model outputFolder st0 f).log) ∧
    (∀ content e, f.readResult = Except.ok content → f.writeError = some e →
      ∃ op, writeWarn op e ∈ (process_file_model outputFolder st0 f).log) ∧
    (((process_file_model outputFolder st0 f).written = st0.written ∧
      (process_file_model outputFolder st0 f).existing = st0.existing) ∨
     (∃ uname out, uname ∉ st0.existing ∧
      (process_file_model outputFolder st0 f).written = st0.written ++ [(uname, out)] ∧
      (process_file_model outputFolder st0 f).existing = uname :: st0.existing)) := by
  cases hre : f.readResult with
  | error e0 =>
    have hpf : process_file_model outputFolder st0 f =
        { st0 with log := st0.log ++ [readWarn f.path e0] } := by
      rw [process_file_model, hre]
    rw [hpf]
    refine ⟨rfl, rfl, ?_, ?_, ?_, Or.inl ⟨rfl, rfl⟩⟩
    · intro L hL
      simp [hL]
    · intro e he
      have he2 : e0 = e := Except.error.inj he
      subst he2
      simp
    · intro content e hc _
      exact absurd hc (by simp)
  | ok content0 =>
    cases hwe : f.writeError with
    | some e0 =>
      have hpf : process_file_model outputFolder st0 f =
          { st0 with log := st0.log ++ [writeWarn (outputFolder ++ '/' ::
            ensure_unique_path st0.existing (slugify_filename f.name)) e0] } := by
        rw [process_file_model, hre, hwe]
      rw [hpf]
      refine ⟨rfl, rfl, ?_, ?_, ?_, Or.inl ⟨rfl, rfl⟩⟩
      · intro L hL
        simp [hL]
      · intro e he
        exact absurd he (by simp)
      · intro content e _ hw
        have he2 : e0 = e := Option.some.inj hw
        subst he2
        exact ⟨outputFolder ++ '/' ::
          ensure_unique_path st0.existing (slugify_filename f.name), by simp⟩
    | none =>
      have hpf : process_file_model outputFolder st0 f =
          { st0 with
            existing := ensure_unique_path st0.existing (slugify_filename f.name) :: st0.existing,
            written := st0.written ++ [(ensure_unique_path st0.existing (slugify_filename f.name),
              transformContent content0 f.relDir)],
            log := st0.log ++ [convertedMsg f.path (outputFolder ++ '/' ::
              ensure_unique_path st0.existing (slugify_filename f.name))] } := by
        rw [process_file_model, hre, hwe]
      rw [hpf]
      refine ⟨rfl, rfl, ?_, ?_, ?_, ?_⟩
      · intro L hL
        simp [hL]
      · intro e he
        exact absurd he (by simp)
      · intro content e _ hw
        exact absurd hw (by simp)
      · exact Or.inr ⟨ensure_unique_path st0.existing (slugify_filename f.name), _,
          ensure_unique_path_not_mem _ _, rfl, rfl⟩

theorem runStep_facts (outputFolder : List Char) (copyAssets : Bool) (st0 : RunState)
    (f : InputFile) (hmk : isMdName f.name = false → copyAssets = true → f.mkdirFails = false) :
    ∃ st1, runStep outputFolder copyAssets st0 f = .ok st1 ∧
      st1.mdCount = st0.mdCount + (if isMdName f.name then 1 else 0) ∧
      st1.assetCount = st0.assetCount +
        (if isMdName f.name = false ∧ copyAssets = true then 1 else 0) ∧
      (∀ L ∈ st0.log, L ∈ st1.log) ∧
      (isMdName f.name = true →
        (∀ e, f.readResult = Except.error e → readWarn f.path e ∈ st1.log) ∧
        (∀ content e, f.readResult = Except.ok content → f.writeError = some e →
          ∃ op, writeWarn op e ∈ st1.log)) ∧
      (isMdName f.name = false → copyAssets = true →
        ∀ e, f.copyError = some e → copyWarn f.path e ∈ st1.log) ∧
      ((st1.written = st0.written ∧ st1.existing = st0.existing) ∨
       (∃ uname out, uname ∉ st0.existing ∧
        st1.written = st0.written ++ [(uname, out)] ∧
        st1.existing = uname :: st0.existing)) := by
  by_cases hmd : isMdName f.name = true
  · obtain ⟨h1, h2, h3, h4, h5, h6⟩ := process_file_model_facts outputFolder st0 f
    refine ⟨{ process_file_model outputFolder st0 f with
        mdCount := (process_file_model outputFolder st0 f).mdCount + 1 },
        ?_, ?_, ?_, h3, fun _ => ⟨h4, h5⟩, ?_, h6⟩
    · rw [runStep, if_pos hmd]
    · simp [h1, hmd]
    · simp [h2, hmd]
    · intro hmd2
      rw [hmd2] at hmd
      exact absurd hmd (by simp)
  · rw [Bool.not_eq_true] at hmd
    by_cases hca : copyAssets = true
    · have hmk2 : f.mkdirFails = false := hmk hmd hca
      cases hce : f.copyError with
      | some e0 =>
        refine ⟨{ st0 with
            log := st0.log ++ [copyWarn f.path e0]
            assetCount := st0.assetCount + 1 }, ?_, by simp [hmd], by simp [hmd, hca], ?_, ?_, ?_,
            Or.inl ⟨rfl, rfl⟩⟩
        · rw [runStep, if_neg (by simp [hmd]), if_pos hca, copy_asset_model]
          rw [if_neg (by simp [hmk2]), hce]
        · intro L hL
          simp [hL]
        · intro hc
          rw [hmd] at hc
          exact absurd hc (by simp)
        · intro _ _ e he
          have he2 : e0 = e := Option.some.inj he
          subst he2
          simp
      | none =>
        refine ⟨{ st0 with assetCount := st0.assetCount + 1 }, ?_, by simp [hmd],
            by simp [hmd, hca], fun L hL => hL, ?_, ?_, Or.inl ⟨rfl, rfl⟩⟩
        · rw [runStep, if_neg (by simp [hmd]), if_pos hca, copy_asset_model]
          rw [if_neg (by simp [hmk2]), hce]
        · intro hc
          rw [hmd] at hc
          exact absurd hc (by simp)
        · intro _ _ e he
          exact absurd he (by simp)
    · refine ⟨st0, ?_, by simp [hmd], by simp [hca], fun L hL => hL, ?_, ?_,
        Or.inl ⟨rfl, rfl⟩⟩
      · rw [runStep, if_neg (by simp [hmd]), if_neg hca]
      · intro hc
        rw [hmd] at hc
        exact absurd hc (by simp)
      · intro _ hca2
        exact absurd hca2 hca

theorem runFiles_complete (outputFolder : List Char) (copyAssets : Bool) :
    ∀ (files : List InputFile) (st0 : RunState),
      (∀ f ∈ files, isMdName f.name = false → copyAssets = true → f.mkdirFails = false) →
      ∃ st, runFiles outputFolder copyAssets st0 files = .ok st ∧
        st.mdCount = st0.mdCount + (files.filter (fun f => isMdName f.name)).length ∧
        st.assetCount = st0.assetCount +
          (if copyAssets then (files.filter (fun f => !isMdName f.name)).length else 0) ∧
        (∀ L ∈ st0.log, L ∈ st.log) ∧
        (∀ f ∈ files, isMdName f.name = true →
          (∀ e, f.readResult = Except.error e → readWarn f.path e ∈ st.log) ∧
          (∀ content e, f.readResult = Except.ok content → f.writeError = some e →
            ∃ op, writeWarn op e ∈ st.log)) ∧
        (∀ f ∈ files, isMdName f.name = false → copyAssets = true →
          ∀ e, f.copyError = some e → copyWarn f.path e ∈ st.log) := by
  intro files
  induction files with
  | nil =>
    intro st0 _
    refine ⟨st0, rfl, by simp, ?_, fun L hL => hL, by simp, by simp⟩
    cases copyAssets <;> simp
  | cons f fs ih =>
    intro st0 hmk
    obtain ⟨st1, hs1, hc1, hc2, hlog1, hwarn1, hcopy1, _⟩ :=
      runStep_facts outputFolder copyAssets st0 f (hmk f (by simp))
    obtain ⟨st, hs, hc1', hc2', hlog2, hwarn2, hcopy2⟩ :=
      ih st1 (fun g hg => hmk g (by simp [hg]))
    refine ⟨st, ?_, ?_, ?_, fun L hL => hlog2 L (hlog1 L hL), ?_, ?_⟩
    · rw [runFiles, hs1]
      exact hs
    · rw [hc1', hc1, List.filter_cons]
      by_cases h : isMdName f.name = true <;> simp [h] <;> omega
    · rw [hc2', hc2, List.filter_cons]
      by_cases h : isMdName f.name = true
      · simp only [h, Bool.not_true, if_true, if_false]
        cases copyAssets <;> simp <;> omega
      · rw [Bool.not_eq_true] at h
        simp only [h, Bool.not_false, if_true, if_false]
        cases hca : copyAssets <;> simp [hca] <;> omega
    · intro g hg hgm
      rcases List.mem_cons.mp hg with rfl | hg'
      · refine ⟨fun e he => hlog2 _ ((hwarn1 hgm).1 e he), fun content e hc hw => ?_⟩
        obtain ⟨op, hop⟩ := (hwarn1 hgm).2 content e hc hw
        exact ⟨op, hlog2 _ hop⟩
      · exact hwarn2 g hg' hgm
    · intro g hg hgm hca e he
      rcases List.mem_cons.mp hg with rfl | hg'
      · exact hlog2 _ (hcopy1 hgm hca e he)
      · exact hcopy2 g hg' hgm hca e he

theorem runFiles_no_collision (outputFolder : List Char) (copyAssets : Bool)
    (existing0 : List (List Char)) :
    ∀ (files : List InputFile) (st0 st : RunState),
      runFiles outputFolder copyAssets st0 files = .ok st →
      (st0.written.map Prod.fst).Nodup →
      (∀ n ∈ st0.written.map Prod.fst, n ∈ st0.existing) →
      (∀ n ∈ existing0, n ∈ st0.existing) →
      (∀ n ∈ st0.written.map Prod.fst, n ∉ existing0) →
      (st.written.map Prod.fst).Nodup ∧ (∀ n ∈ st.written.map Prod.fst, n ∉ existing0) := by
  intro files
  induction files with
  | nil =>
    intro st0 st h h1 h2 h3 h4
    rw [runFiles] at h
    have hst : st0 = st := Except.ok.inj h
    subst hst
    exact ⟨h1, h4⟩
  | cons f fs ih =>
    intro st0 st h h1 h2 h3 h4
    rw [runFiles] at h
    cases hstep : runStep outputFolder copyAssets st0 f with
    | error e =>
      rw [hstep] at h
      exact absurd h (by simp)
    | ok st1 =>
      rw [hstep] at h
      simp only [] at h
      have hfacts : (st1.written = st0.written ∧ st1.existing = st0.existing) ∨
          (∃ uname out, uname ∉ st0.existing ∧
            st1.written = st0.written ++ [(uname, out)] ∧
            st1.existing = uname :: st0.existing) := by
        rw [runStep] at hstep
        by_cases hmd : isMdName f.name = true
        · rw [if_pos hmd] at hstep
          have hst1 := Except.ok.inj hstep
          obtain ⟨_, _, _, _, _, h6⟩ := process_file_model_facts outputFolder st0 f
          rw [← hst1]
          exact h6
        · rw [if_neg hmd] at hstep
          by_cases hca : copyAssets = true
          · rw [if_pos hca, copy_asset_model] at hstep
            by_cases hmkf : f.mkdirFails = true
            · rw [if_pos hmkf] at hstep
              exact absurd hstep (by simp)
            · rw [if_neg hmkf] at hstep
              cases hce : f.copyError with
              | some e0 =>
                rw [hce] at hstep
                have hst1 := Except.ok.inj hstep
                rw [← hst1]
                exact Or.inl ⟨rfl, rfl⟩
              | none =>
                rw [hce] at hstep
                have hst1 := Except.ok.inj hstep
                rw [← hst1]
                exact Or.inl ⟨rfl, rfl⟩
          · rw [if_neg hca] at hstep
            have hst1 := Except.ok.inj hstep
            rw [← hst1]
            exact Or.inl ⟨rfl, rfl⟩
      rcases hfacts with ⟨hw, he⟩ | ⟨uname, out, hnm, hw, he⟩
      · exact ih st1 st h (by rw [hw]; exact h1) (by rw [hw, he]; exact h2)
          (by rw [he]; exact h3) (by rw [hw]; exact h4)
      · refine ih st1 st h ?_ ?_ ?_ ?_
        · rw [hw]
          simp only [List.map_append, List.map_cons, List.map_nil]
          rw [List.nodup_append]
          refine ⟨h1, by simp, ?_⟩
          intro n hn
          simp only [List.mem_singleton]
          intro hne
          subst hne
          exact hnm (h2 n hn)
        · rw [hw, he]
          intro n hn
          simp only [List.map_append, List.map_cons, List.map_nil, List.mem_append,
            List.mem_singleton] at hn
          rcases hn with hn | rfl
          · simp [h2 n hn]
          · simp
        · rw [he]
          intro n hn
          simp [h3 n hn]
        · rw [hw]
          intro n hn
          simp only [List.map_append, List.map_cons, List.map_nil, List.mem_append,
            List.mem_singleton] at hn
          rcases hn with hn | heq
          · exact h4 n hn
          · intro hmem
            rw [heq] at hmem
            exact hnm (h3 _ hmem)

/-- C5: within a single run, no two successfully written Documents share an
output name, and no written name collides with a name already present in the
output directory at the start of the run (collisions are resolved by the
Filename Resolver's incrementing suffix, and writing a file claims its name
for the rest of the run). -/
theorem flatten_no_collision (outputFolder : List Char) (copyAssets : Bool)
    (existing0 : List (List Char)) (files : List InputFile) :
    (writtenNamesOf (process_and_flatten_model outputFolder copyAssets existing0 files)).Nodup ∧
    ∀ n ∈ writtenNamesOf (process_and_flatten_model outputFolder copyAssets existing0 files),
      n ∉ existing0 := by
  cases hr : process_and_flatten_model outputFolder copyAssets existing0 files with
  | error e => simp [writtenNamesOf]
  | ok st =>
    have hinv := runFiles_no_collision outputFolder copyAssets existing0 files
      (initState existing0) st hr (by simp [initState]) (by simp [initState])
      (fun n hn => by simpa [initState] using hn) (by simp [initState])
    simpa [writtenNamesOf] using hinv

/-- C5 witness: a run over two readable files with the same basename from
different subfolders writes them under distinct non-colliding names. -/
theorem flatten_no_collision_witness :
    (writtenNamesOf wRun).Nodup ∧
      writtenNamesOf wRun = [("Plan.md").toList, ("Plan-1.md").toList] :=
  ⟨(flatten_no_collision (("out").toList) true [("assets").toList] [wFile1, wFile2]).1,
    by decide⟩

/-- C8 counterexample: an asset whose destination directory cannot be created
(`os.makedirs` is called outside the `try` block in `copy_asset`) aborts the
whole run instead of being skipped with a warning. -/
theorem error_handling_mkdir_aborts_cex :
    runAborted (process_and_flatten_model (("out").toList) true [] [cBadAsset]) = true ∧
      cBadAsset.mkdirFails = true := by
  constructor
  · rfl
  · rfl

/-- C8 (amended): read failures, write failures, and `shutil.copy2` failures
are non-fatal — each emits a warning naming the file and cause, the file is
skipped, traversal continues with every remaining file, and the run completes
normally; however a failure of `os.makedirs` for an asset's destination
directory propagates (it is outside the `try`) and aborts the run, which is
what the counterexample forces.  Stated for runs whose asset `makedirs`
calls succeed. -/
theorem error_handling_spec (outputFolder : List Char) (existing0 : List (List Char))
    (files : List InputFile)
    (hmk : ∀ f ∈ files, isMdName f.name = false → f.mkdirFails = false) :
    runAborted (process_and_flatten_model outputFolder true existing0 files) = false ∧
    (∀ f ∈ files, isMdName f.name = true → ∀ e, f.readResult = Except.error e →
      readWarn f.path e ∈ logOf (process_and_flatten_model outputFolder true existing0 files)) ∧
    (∀ f ∈ files, isMdName f.name = true → ∀ content e, f.readResult = Except.ok content →
      f.writeError = some e →
      ∃ op, writeWarn op e ∈
        logOf (process_and_flatten_model outputFolder true existing0 files)) ∧
    (∀ f ∈ files, isMdName f.name = false → ∀ e, f.copyError = some e →
      copyWarn f.path e ∈ logOf (process_and_flatten_model outputFolder true existing0 files)) ∧
    mdCountOf (process_and_flatten_model outputFolder true existing0 files) +
      assetCountOf (process_and_flatten_model outputFolder true existing0 files) =
      files.length := by
  obtain ⟨st, hok, hc1, hc2, _, hwarn, hcopy⟩ :=
    runFiles_complete outputFolder true files (initState existing0)
      (fun f hf hmd _ => hmk f hf hmd)
  have hmodel : process_and_flatten_model outputFolder true existing0 files = .ok st := hok
  rw [hmodel]
  refine ⟨rfl, ?_, ?_, ?_, ?_⟩
  · intro f hf hmd e he
    exact (hwarn f hf hmd).1 e he
  · intro f hf hmd content e hc hw
    exact (hwarn f hf hmd).2 content e hc hw
  · intro f hf hmd e he
    exact hcopy f hf hmd rfl e he
  · show st.mdCount + st.assetCount = files.length
    rw [hc1, hc2]
    simp only [initState, if_pos rfl]
    have hsplit := length_filter_split (fun f : InputFile => isMdName f.name) files
    simp only [if_true]
    omega

/-- C8 witness. -/
theorem error_handling_spec_witness :
    runAborted (process_and_flatten_model (("out").toList) true [] [cFailMd]) = false ∧
      readWarn cFailMd.path (("boom").toList) ∈
        logOf (process_and_flatten_model (("out").toList) true [] [cFailMd]) :=
  ⟨(error_handling_spec (("out").toList) [] [cFailMd]
      (by intro f hf hmd; simp at hf; subst hf; rfl)).1,
    (error_handling_spec (("out").toList) [] [cFailMd]
      (by intro f hf hmd; simp at hf; subst hf; rfl)).2.1 cFailMd (by simp) (by rfl)
      (("boom").toList) rfl⟩

/-- C9 counterexample: the summary counters are incremented unconditionally —
a Markdown file whose read fails is still counted as "processed" even though
nothing was transformed or written: a run over one unreadable Markdown file
reports a Markdown count of 1 while 0 files were written. -/
theorem summary_counts_failures_cex :
    mdCountOf c9Run = 1 ∧ writtenCountOf c9Run = 0 ∧ (1 : Nat) ≠ 0 := by
  refine ⟨rfl, rfl, by decide⟩

/-- C9 (amended): the reported Markdown count equals the number of Markdown
files ENCOUNTERED during traversal and the asset count equals the number of
asset copies ATTEMPTED (when asset copying is enabled), regardless of read,
write, or copy failures — failed files are included in the counts, which is
what the counterexample forces.  Stated for runs whose asset `makedirs`
calls succeed. -/
theorem summary_counts_spec (outputFolder : List Char) (existing0 : List (List Char))
    (copyAssets : Bool) (files : List InputFile)
    (hmk : ∀ f ∈ files, isMdName f.name = false → copyAssets = true → f.mkdirFails = false) :
    runAborted (process_and_flatten_model outputFolder copyAssets existing0 files) = false ∧
    mdCountOf (process_and_flatten_model outputFolder copyAssets existing0 files) =
      (files.filter (fun f => isMdName f.name)).length ∧
    assetCountOf (process_and_flatten_model outputFolder copyAssets existing0 files) =
      (if copyAssets then (files.filter (fun f => !isMdName f.name)).length else 0) := by
  obtain ⟨st, hok, hc1, hc2, _, _, _⟩ :=
    runFiles_complete outputFolder copyAssets files (initState existing0) hmk
  have hmodel : process_and_flatten_model outputFolder copyAssets existing0 files = .ok st := hok
  rw [hmodel]
  refine ⟨rfl, ?_, ?_⟩
  · show st.mdCount = _
    rw [hc1]
    simp [initState]
  · show st.assetCount = _
    rw [hc2]
    simp [initState]

/-- C9 witness. -/
theorem summary_counts_spec_witness :
    mdCountOf (process_and_flatten_model (("out").toList) true [] [cFailMd]) =
      ([cFailMd].filter (fun f => isMdName f.name)).length ∧
      ([cFailMd].filter (fun f => isMdName f.name)).length = 1 :=
  ⟨(summary_counts_spec (("out").toList) [] true [cFailMd]
      (by intro f hf hmd _; simp at hf; subst hf; rfl)).2.1,
    by decide⟩

end NotionToObsidian
